import Mathlib

/-!
# Verification of the Superloop RLMS worker core

A shallow embedding of `src/scripts/rlms_worker.py` (the sandboxed REPL
worker), together with theorems settling the frozen claims about it.

Conventions of the embedding:
* Python strings become `String` / `List Char`; machine-independent Python
  ints become `Int` (Python ints are unbounded, so no modular wrap is needed).
* Python `None`-or-value fields become `Option` or an explicit `none`-like
  constructor, matching how the source tests them (`is None`).
* Functions that raise become `Except`; when the source mutates state before
  raising, the error constructor carries the post-mutation state.
* `re.search` on a single line is abstracted as a predicate
  `String → Bool` handed to `grep`: the source compiles the pattern once and
  only uses the boolean match result per line, so the citation-shaped output
  is independent of the regex engine itself.
* Wall-clock time is threaded explicitly: the monotone "elapsed seconds"
  value is a `ℚ` argument to the operations that call `check_timeout`.
-/

/-! ## Python-style string helpers (`compact_text` and friends) -/

/-- Python `str.isspace`-style whitespace test for the ASCII characters the
worker manipulates (`str.strip` / `str.split` default whitespace). -/
def pyIsSpace (c : Char) : Bool :=
  c == ' ' || c == '\t' || c == '\n' || c == '\r' || c == '\x0b' || c == '\x0c'

/-- Python `str.strip()` on a character list. -/
def pyStrip (cs : List Char) : List Char :=
  (cs.dropWhile pyIsSpace).rdropWhile pyIsSpace

/-- Python `str.split()` with no separator: maximal runs of non-whitespace.
A non-space character either starts a new word (when what follows is empty
or whitespace) or extends the first word of the tail's split. -/
def pyGlue (c : Char) (rest : List Char) (ws : List (List Char)) :
    List (List Char) :=
  match rest, ws with
  | [], _ => [[c]]
  | d :: _, w :: ws' => if pyIsSpace d then [c] :: w :: ws' else (c :: w) :: ws'
  | _ :: _, [] => [[c]]

def pyWords : List Char → List (List Char)
  | [] => []
  | c :: rest =>
    if pyIsSpace c then pyWords rest
    else pyGlue c rest (pyWords rest)

/-- `" ".join(text.strip().split())`: collapse internal whitespace runs to
single spaces and drop the outer whitespace. -/
def pyCollapse (cs : List Char) : List Char :=
  List.intercalate [' '] (pyWords (pyStrip cs))

/-- `compact_text(text, max_len)` from the worker: whitespace-collapse, then
truncate to `max_len` characters with a `...` suffix. -/
def compact_text (maxLen : Nat) (cs : List Char) : List Char :=
  let line := pyCollapse cs
  if line.length ≤ maxLen then line else line.take (maxLen - 3) ++ ['.', '.', '.']

/-- `compact_text` on `String`s (`MAX_SNIPPET_LEN = 220` is the default). -/
def compactTextStr (maxLen : Nat) (s : String) : String :=
  (compact_text maxLen s.data).asString

/-- Python `str.strip()` on `String`s. -/
def pyStripStr (s : String) : String :=
  (pyStrip s.data).asString

/-! ## Citations (`normalize_citation`, `normalize_signal`) -/

/-- The citation record shape `{path, start_line, end_line, signal, snippet}`
produced by `grep`, `add_citation` and `normalize_citation`. -/
structure Citation where
  path : String
  start_line : Int
  end_line : Int
  signal : String
  snippet : String
deriving DecidableEq, Repr

/-- `normalize_signal(value)` for a string input: compact to 48 chars,
falling back to `"reference"` when empty. -/
def normalize_signal (value : String) : String :=
  let text := compactTextStr 48 (if value = "" then "reference" else value)
  if text = "" then "reference" else text

/-- `normalize_citation(raw)` for a record whose line fields are integers
(the `int(...)` coercions succeed, as they do for every record the worker
itself builds). Returns `none` when the stripped path is empty. -/
def normalize_citation (raw : Citation) : Option Citation :=
  let path := pyStripStr raw.path
  if path = "" then none
  else
    let start_i : Int := max 1 raw.start_line
    let end_i : Int := max start_i raw.end_line
    some { path := path
           start_line := start_i
           end_line := end_i
           signal := normalize_signal raw.signal
           snippet := compactTextStr 220 raw.snippet }

/-! ## Documents and the sandbox's path index -/

/-- `Document(path, text, lines)`; `lines = text.splitlines()` is computed by
the loader, so we store it directly. -/
structure Document where
  path : String
  text : String
  lines : List String
deriving DecidableEq, Repr

/-- One insertion into a Python `dict` built by comprehension: an existing
key keeps its position but takes the new value. -/
def dictInsert (k : String) (v : Document) :
    List (String × Document) → List (String × Document)
  | [] => [(k, v)]
  | (k', v') :: rest =>
    if k' = k then (k', v) :: rest else (k', v') :: dictInsert k v rest

/-- `{doc.path: doc for doc in docs}`: the sandbox's `docs_by_path` index. -/
def docsByPath (docs : List Document) : List (String × Document) :=
  docs.foldl (fun m d => dictInsert d.path d m) []

/-- Association-list lookup, mirroring `dict.get`. -/
def assocGet (k : String) : List (String × Document) → Option Document
  | [] => none
  | (k', v) :: rest => if k' = k then some v else assocGet k rest

/-! ## Execution state and budgets (`ExecutionState`) -/

/-- A trace row: the worker records root-step and subcall entries. Only the
fields the claims touch are kept (type tag and return code). -/
inductive TraceEntry where
  | rootEntry (rc : Int)
  | subcallEntry (rc : Int)
deriving DecidableEq, Repr

/-- The controller's mutable ledger. `elapsed_seconds` is not stored: the
monotone clock reading is passed explicitly to the operations that use it. -/
structure ExecutionState where
  max_steps : Int
  max_depth : Int
  timeout_seconds : Int
  max_subcalls : Int
  step_count : Int := 0
  subcall_count : Int := 0
  history : List TraceEntry := []
deriving DecidableEq, Repr

/-- Which budget a `LimitError` came from (the message text is irrelevant to
every claim, so only the kind is kept). -/
inductive LimitKind where
  | timeout | step | depthLow | depthHigh | subcalls
deriving DecidableEq, Repr

/-- `check_timeout`: true exactly when the source would raise `LimitError`. -/
def check_timeout (elapsed : ℚ) (s : ExecutionState) : Bool :=
  decide (s.timeout_seconds > 0 ∧ elapsed > (s.timeout_seconds : ℚ))

/-- `tick_step`: increment `step_count`, then enforce the step budget and the
wall clock. The error carries the state as mutated before the raise. -/
def tick_step (elapsed : ℚ) (s : ExecutionState) :
    Except (LimitKind × ExecutionState) ExecutionState :=
  let s' := { s with step_count := s.step_count + 1 }
  if s.max_steps > 0 ∧ s'.step_count > s.max_steps then .error (.step, s')
  else if check_timeout elapsed s' then .error (.timeout, s')
  else .ok s'

/-- `next_subcall(depth)`: reject `depth < 1` and `depth > max_depth` before
counting, then count the subcall and enforce the subcall budget and clock.
The error carries the state exactly as the source leaves it (the depth
rejections happen before the increment). -/
def next_subcall (elapsed : ℚ) (depth : Int) (s : ExecutionState) :
    Except (LimitKind × ExecutionState) ExecutionState :=
  if depth < 1 then .error (.depthLow, s)
  else if depth > s.max_depth then .error (.depthHigh, s)
  else
    let s' := { s with subcall_count := s.subcall_count + 1 }
    if s'.subcall_count > s.max_subcalls then .error (.subcalls, s')
    else if check_timeout elapsed s' then .error (.timeout, s')
    else .ok s'

/-- `remaining_timeout` raises exactly when the remaining budget is ≤ 0
(and returns no deadline at all when `timeout_seconds ≤ 0`). -/
def remainingTimeoutRaises (elapsed : ℚ) (s : ExecutionState) : Bool :=
  decide (s.timeout_seconds > 0 ∧ (s.timeout_seconds : ℚ) - elapsed ≤ 0)

/-- The record `invoke_cli` returns for a finished child process. -/
structure CliResponse where
  ok : Bool
  returncode : Int
  stdout : String
  stderr : String
deriving DecidableEq, Repr

/-- `MAX_SUBCALL_PROMPT_CHARS` from the source. -/
def MAX_SUBCALL_PROMPT_CHARS : Nat := 120000

/-- History truncation: `if len(h) > 200: h = h[-200:]`. -/
def truncHistory (h : List TraceEntry) : List TraceEntry :=
  if h.length > 200 then h.drop (h.length - 200) else h

/-- Worker error taxonomy as it reaches `main`'s handlers. Messages are
dropped: every claim is about the error class / error code, never the text. -/
inductive WorkerErr where
  | limit : WorkerErr
  | sandboxViolation : WorkerErr
  | modelFail : WorkerErr
  | other : WorkerErr
deriving DecidableEq, Repr

/-- `sub_rlm(prompt, depth)`. The child invocation is modeled by the
`resp` argument (what `invoke_cli` would return); the boolean in the result
records whether the child process was invoked at all. -/
def sub_rlm (resp : CliResponse) (prompt : String) (depth : Int)
    (elapsed : ℚ) (st : ExecutionState) :
    Except (WorkerErr × ExecutionState) (String × ExecutionState) × Bool :=
  let _prompt_text :=
    if prompt.length > MAX_SUBCALL_PROMPT_CHARS
    then prompt.take MAX_SUBCALL_PROMPT_CHARS else prompt
  match next_subcall elapsed depth st with
  | .error (_, st') => (.error (.limit, st'), false)
  | .ok st' =>
    if remainingTimeoutRaises elapsed st' then (.error (.limit, st'), false)
    else
      let st'' := { st' with
        history := truncHistory (st'.history ++ [.subcallEntry resp.returncode]) }
      if resp.ok then (.ok (pyStripStr resp.stdout, st''), true)
      else (.error (.modelFail, st''), true)

/-! ## Sandbox runtime state and helpers -/

/-- Python values as far as the sandboxed fragments under verification
build them. `none` doubles as the unset marker of the `final` slot, exactly
as `None` does in the source (`self.final_value: Any = None`). -/
inductive PyVal where
  | none : PyVal
  | bool (b : Bool) : PyVal
  | int (n : Int) : PyVal
  | str (s : String) : PyVal
  | list (l : List PyVal) : PyVal
  | dict (l : List (PyVal × PyVal)) : PyVal

/-- The `is None` test the controller applies to the `final` slot. -/
def PyVal.isNone : PyVal → Bool
  | .none => true
  | _ => false

/-- `str(v)` for the embedded values. -/
def pyStr : PyVal → String
  | .none => "None"
  | .bool b => if b then "True" else "False"
  | .int n => toString n
  | .str s => s
  | .list _ => "[...]"
  | .dict _ => "{...}"

/-- `MAX_CITATIONS` and `MAX_HIGHLIGHTS` from the source. -/
def MAX_CITATIONS : Nat := 120
def MAX_HIGHLIGHTS : Nat := 80

/-- The sandbox's own mutable state: documents index, highlights,
citations and the `final` slot. -/
structure SandboxState where
  docs_by_path : List (String × Document)
  highlights : List String := []
  citations : List Citation := []
  final_value : PyVal := .none

/-- Fresh sandbox over the loaded documents. -/
def initSandbox (docs : List Document) : SandboxState :=
  { docs_by_path := docsByPath docs }

/-- `set_final(value)`: plain overwrite of the slot. -/
def set_final (value : PyVal) (sb : SandboxState) : SandboxState :=
  { sb with final_value := value }

/-- `append_highlight(text)`: compact, drop empties and duplicates, cap. -/
def append_highlight (text : String) (sb : SandboxState) : SandboxState :=
  let value := compactTextStr 240 text
  if value = "" then sb
  else
    let hs := if sb.highlights.contains value
              then sb.highlights else sb.highlights ++ [value]
    { sb with highlights := if hs.length > MAX_HIGHLIGHTS then hs.take MAX_HIGHLIGHTS else hs }

/-- `add_citation(path, start_line, end_line, signal, snippet)`:
normalization happens first; a record it rejects is dropped silently, an
unknown path afterwards is a `SandboxViolation`. -/
def add_citation (path : String) (start_line end_line : Int)
    (signal snippet : String) (sb : SandboxState) :
    Except WorkerErr SandboxState :=
  match normalize_citation
      { path := path, start_line := start_line, end_line := end_line
        signal := signal, snippet := snippet } with
  | Option.none => .ok sb
  | Option.some c =>
    if (assocGet c.path sb.docs_by_path).isNone then .error .sandboxViolation
    else
      let cs := sb.citations ++ [c]
      .ok { sb with citations := if cs.length > MAX_CITATIONS then cs.take MAX_CITATIONS else cs }

/-- Python string `<`: strict lexicographic comparison by code point. -/
def charListLt : List Char → List Char → Bool
  | [], [] => false
  | [], _ :: _ => true
  | _ :: _, [] => false
  | a :: as, b :: bs =>
    if a.toNat < b.toNat then true
    else if b.toNat < a.toNat then false
    else charListLt as bs

/-- Python string `<=` (total order dual to `charListLt`). -/
def charListLe (a b : List Char) : Bool := !(charListLt b a)

/-- The non-strict sort order `sorted(...)` uses on paths. -/
def strLe (a b : String) : Prop := charListLe a.data b.data = true

instance : DecidableRel strLe := fun a b => instDecidableEqBool _ true

/-- The sort order of `sorted(self.docs_by_path.items(), key=lambda kv: kv[0])`. -/
def pathKeyLe (a b : String × Document) : Prop := strLe a.1 b.1

instance : DecidableRel pathKeyLe := fun a b => instDecidableEqBool _ true

/-- `list_files()`: sorted document paths. -/
def list_files (sb : SandboxState) : List String :=
  (sb.docs_by_path.map Prod.fst).insertionSort strLe

/-- `read_file(path, start_line, end_line)`; `end_line = none` is Python's
`None` default. -/
def read_file (sb : SandboxState) (path : String)
    (start_line : Int) (end_line : Option Int) : Except WorkerErr String :=
  match assocGet path sb.docs_by_path with
  | Option.none => .error .sandboxViolation
  | Option.some doc =>
    let start : Int := max 1 start_line
    let endI : Int :=
      match end_line with
      | Option.none => (doc.lines.length : Int)
      | Option.some e => max start e
    if start > (doc.lines.length : Int) then .ok ""
    else .ok (String.intercalate "\n"
      ((doc.lines.drop (start - 1).toNat).take (endI - (start - 1)).toNat))

/-- `slice_text(text, start, end)` for integer arguments and a string input:
Python's `src[s:e]` for `s, e ≥ 0`. -/
def slice_text (text : String) (start : Int) (endI : Option Int) : String :=
  let src := text.data
  let s := start.toNat
  match endI with
  | Option.none => (src.drop s).asString
  | Option.some e => ((src.take e.toNat).drop s).asString

/-- One line-scan of `grep`: the body of
`for line_no, line in enumerate(doc.lines, start=1)` for one document,
emitting a citation per matching line. `pred` is the compiled regex's
per-line `search` result. -/
def grepDocMatches (pred : String → Bool) (relPath : String) :
    Nat → List String → List Citation
  | _, [] => []
  | lineNo, line :: rest =>
    (if pred line then
      [{ path := relPath, start_line := (lineNo : Int), end_line := (lineNo : Int)
         signal := "regex_match", snippet := compactTextStr 220 line }]
     else []) ++ grepDocMatches pred relPath (lineNo + 1) rest

/-- `grep(pattern, path, max_matches)`. The source appends match records one
at a time and returns as soon as `limit` is reached, which is truncation of
the full scan to `limit` records. -/
def grep (sb : SandboxState) (pred : String → Bool)
    (path : Option String) (max_matches : Int) : Except WorkerErr (List Citation) :=
  let limit : Nat := (min (max 1 max_matches) 500).toNat
  match path with
  | Option.none =>
    let targets := sb.docs_by_path.insertionSort pathKeyLe
    .ok ((targets.map (fun kv => grepDocMatches pred kv.1 1 kv.2.lines)).flatten.take limit)
  | Option.some p =>
    match assocGet p sb.docs_by_path with
    | Option.none => .error .sandboxViolation
    | Option.some d =>
      .ok ((grepDocMatches pred d.path 1 d.lines).take limit)

/-! ## The sandboxed AST and its validator (`_validate_ast`)

The fragment language is the Python `ast` surface the validator inspects.
Constructors carry exactly the children `ast.iter_child_nodes` would visit
(plus the raw strings Python stores outside child nodes, such as function
and parameter names, which — faithfully to the source — the validator never
checks for dunders). Operator kinds are enumerated so that the allow-list
check on `ast.Add`/`ast.MatMult`/… is expressible. -/

/-- `ast.Constant` payloads; only "is it a string" matters to the validator. -/
inductive Const where
  | noneC
  | boolC (b : Bool)
  | intC (n : Int)
  | strC (s : String)
  | otherC
deriving DecidableEq, Repr

/-- Binary operator nodes. Allowed: `Add Sub Mult Div FloorDiv Mod Pow`. -/
inductive BinOpKind where
  | add | sub | mult | div | floorDiv | modK | pow
  | matMult | lShift | rShift | bitOr | bitXor | bitAnd
deriving DecidableEq, Repr

/-- Unary operator nodes. Allowed: `UAdd USub Not`. -/
inductive UnaryOpKind where
  | uAdd | uSub | notK | invert
deriving DecidableEq, Repr

/-- Comparison operator nodes (all are on the allow-list). -/
inductive CmpOpKind where
  | eq | notEq | lt | ltE | gt | gtE | inK | notIn | isK | isNot
deriving DecidableEq, Repr

/-- Boolean operator nodes (both on the allow-list). -/
inductive BoolOpKind where
  | andK | orK
deriving DecidableEq, Repr

mutual
/-- Expression nodes. -/
inductive Expr where
  | name (id : String)
  | attribute (value : Expr) (attr : String)
  | const (c : Const)
  | listLit (elts : List Expr)
  | tupleLit (elts : List Expr)
  | setLit (elts : List Expr)
  | dictLit (keys : List Expr) (vals : List Expr)
  | subscript (value : Expr) (idx : Expr)
  | sliceLit (lower upper step : Option Expr)
  | binOp (left : Expr) (op : BinOpKind) (right : Expr)
  | unaryOp (op : UnaryOpKind) (operand : Expr)
  | boolOp (op : BoolOpKind) (values : List Expr)
  | compare (left : Expr) (ops : List CmpOpKind) (comparators : List Expr)
  | call (func : Expr) (args : List Expr) (keywords : List Kw)
  | ifExp (test body orelse : Expr)
  | listComp (elt : Expr) (gens : List Comp)
  | setComp (elt : Expr) (gens : List Comp)
  | genExp (elt : Expr) (gens : List Comp)
  | dictComp (key val : Expr) (gens : List Comp)
  | joinedStr (values : List Expr)
  | formattedValue (value : Expr)
  | lambdaE (params : List String) (body : Expr)
  | starred (value : Expr)
  | namedExpr (target value : Expr)
  | awaitE (value : Expr)
  | yieldE (value : Option Expr)
  | yieldFrom (value : Expr)

/-- `ast.keyword`: a keyword argument (`arg = none` is `**kwargs`). -/
inductive Kw where
  | mk (arg : Option String) (value : Expr)

/-- `ast.comprehension`. -/
inductive Comp where
  | mk (target iter : Expr) (ifs : List Expr)
end

/-- Statement nodes. The explicitly rejected kinds carry only the children
irrelevant to validation (they are rejected unconditionally). -/
inductive Stmt where
  | exprStmt (value : Expr)
  | assign (targets : List Expr) (value : Expr)
  | augAssign (target : Expr) (op : BinOpKind) (value : Expr)
  | ifS (test : Expr) (body orelse : List Stmt)
  | forS (target iter : Expr) (body orelse : List Stmt)
  | whileS (test : Expr) (body orelse : List Stmt)
  | breakS | continueS | passS
  | functionDef (fname : String) (params : List String) (body : List Stmt)
  | returnS (value : Option Expr)
  | importS | importFromS
  | withS (body : List Stmt)
  | classDefS (body : List Stmt)
  | globalS (names : List String)
  | nonlocalS (names : List String)
  | deleteS (targets : List Expr)
  | tryS (body : List Stmt)
  | raiseS (exc : Option Expr)
  | assertS (test : Expr)
  | asyncFunctionDef (fname : String) (params : List String) (body : List Stmt)
  | matchS

/-- `ast.Module`. -/
inductive PyMod where
  | module (body : List Stmt)

/-- A node as `ast.walk` visits it. Expression nodes carry the one piece of
parent information the validator consults through its `parent_map`: whether
the node sits in the `func` slot of a `Call` parent. -/
inductive FlatNode where
  | exprN (e : Expr) (isCallFunc : Bool)
  | kwN (k : Kw)
  | compN (c : Comp)
  | stmtN (s : Stmt)
  | modN (m : PyMod)

mutual
/-- All nodes of an expression subtree, each paired with its call-func flag. -/
def walkExpr : Expr → Bool → List FlatNode
  | .name i, fl => [.exprN (.name i) fl]
  | .attribute v a, fl => .exprN (.attribute v a) fl :: walkExpr v false
  | .const c, fl => [.exprN (.const c) fl]
  | .listLit es, fl => .exprN (.listLit es) fl :: walkExprs es
  | .tupleLit es, fl => .exprN (.tupleLit es) fl :: walkExprs es
  | .setLit es, fl => .exprN (.setLit es) fl :: walkExprs es
  | .dictLit ks vs, fl => .exprN (.dictLit ks vs) fl :: (walkExprs ks ++ walkExprs vs)
  | .subscript v i, fl => .exprN (.subscript v i) fl :: (walkExpr v false ++ walkExpr i false)
  | .sliceLit lo hi st, fl =>
    .exprN (.sliceLit lo hi st) fl :: (walkOptExpr lo ++ walkOptExpr hi ++ walkOptExpr st)
  | .binOp l op r, fl => .exprN (.binOp l op r) fl :: (walkExpr l false ++ walkExpr r false)
  | .unaryOp op v, fl => .exprN (.unaryOp op v) fl :: walkExpr v false
  | .boolOp op vs, fl => .exprN (.boolOp op vs) fl :: walkExprs vs
  | .compare l ops cs, fl => .exprN (.compare l ops cs) fl :: (walkExpr l false ++ walkExprs cs)
  | .call f args kws, fl =>
    .exprN (.call f args kws) fl :: (walkExpr f true ++ walkExprs args ++ walkKws kws)
  | .ifExp t b e, fl =>
    .exprN (.ifExp t b e) fl :: (walkExpr t false ++ walkExpr b false ++ walkExpr e false)
  | .listComp e gens, fl => .exprN (.listComp e gens) fl :: (walkExpr e false ++ walkComps gens)
  | .setComp e gens, fl => .exprN (.setComp e gens) fl :: (walkExpr e false ++ walkComps gens)
  | .genExp e gens, fl => .exprN (.genExp e gens) fl :: (walkExpr e false ++ walkComps gens)
  | .dictComp k v gens, fl =>
    .exprN (.dictComp k v gens) fl :: (walkExpr k false ++ walkExpr v false ++ walkComps gens)
  | .joinedStr vs, fl => .exprN (.joinedStr vs) fl :: walkExprs vs
  | .formattedValue v, fl => .exprN (.formattedValue v) fl :: walkExpr v false
  | .lambdaE ps b, fl => .exprN (.lambdaE ps b) fl :: walkExpr b false
  | .starred v, fl => .exprN (.starred v) fl :: walkExpr v false
  | .namedExpr t v, fl => .exprN (.namedExpr t v) fl :: (walkExpr t false ++ walkExpr v false)
  | .awaitE v, fl => .exprN (.awaitE v) fl :: walkExpr v false
  | .yieldE v, fl => .exprN (.yieldE v) fl :: walkOptExpr v
  | .yieldFrom v, fl => .exprN (.yieldFrom v) fl :: walkExpr v false

def walkExprs : List Expr → List FlatNode
  | [] => []
  | e :: es => walkExpr e false ++ walkExprs es

def walkOptExpr : Option Expr → List FlatNode
  | Option.none => []
  | Option.some e => walkExpr e false

def walkKws : List Kw → List FlatNode
  | [] => []
  | .mk a v :: ks => .kwN (.mk a v) :: (walkExpr v false ++ walkKws ks)

def walkComps : List Comp → List FlatNode
  | [] => []
  | .mk t i ifs :: cs =>
    .compN (.mk t i ifs) :: (walkExpr t false ++ walkExpr i false ++ walkExprs ifs ++ walkComps cs)
end

mutual
/-- All nodes of a statement subtree. -/
def walkStmt : Stmt → List FlatNode
  | .exprStmt v => .stmtN (.exprStmt v) :: walkExpr v false
  | .assign ts v => .stmtN (.assign ts v) :: (walkExprs ts ++ walkExpr v false)
  | .augAssign t op v => .stmtN (.augAssign t op v) :: (walkExpr t false ++ walkExpr v false)
  | .ifS t b o => .stmtN (.ifS t b o) :: (walkExpr t false ++ walkStmts b ++ walkStmts o)
  | .forS t i b o =>
    .stmtN (.forS t i b o) :: (walkExpr t false ++ walkExpr i false ++ walkStmts b ++ walkStmts o)
  | .whileS t b o => .stmtN (.whileS t b o) :: (walkExpr t false ++ walkStmts b ++ walkStmts o)
  | .breakS => [.stmtN .breakS]
  | .continueS => [.stmtN .continueS]
  | .passS => [.stmtN .passS]
  | .functionDef f ps b => .stmtN (.functionDef f ps b) :: walkStmts b
  | .returnS v => .stmtN (.returnS v) :: walkOptExpr v
  | .importS => [.stmtN .importS]
  | .importFromS => [.stmtN .importFromS]
  | .withS b => .stmtN (.withS b) :: walkStmts b
  | .classDefS b => .stmtN (.classDefS b) :: walkStmts b
  | .globalS ns => [.stmtN (.globalS ns)]
  | .nonlocalS ns => [.stmtN (.nonlocalS ns)]
  | .deleteS ts => .stmtN (.deleteS ts) :: walkExprs ts
  | .tryS b => .stmtN (.tryS b) :: walkStmts b
  | .raiseS e => .stmtN (.raiseS e) :: walkOptExpr e
  | .assertS t => .stmtN (.assertS t) :: walkExpr t false
  | .asyncFunctionDef f ps b => .stmtN (.asyncFunctionDef f ps b) :: walkStmts b
  | .matchS => [.stmtN .matchS]

def walkStmts : List Stmt → List FlatNode
  | [] => []
  | s :: ss => walkStmt s ++ walkStmts ss
end

/-- All nodes of a module, as `ast.walk` yields them (order is irrelevant:
the validator applies a per-node check to every node). -/
def walkMod : PyMod → List FlatNode
  | .module body => .modN (.module body) :: walkStmts body

/-- `{node.name for node in ast.walk(tree) if isinstance(node, FunctionDef)}` -/
def definedFunctionNames (m : PyMod) : List String :=
  (walkMod m).filterMap fun n =>
    match n with
    | .stmtN (.functionDef f _ _) => some f
    | _ => none

/-- `SAFE_BUILTINS` keys. -/
def SAFE_BUILTIN_NAMES : List String :=
  ["len", "min", "max", "sum", "sorted", "range", "enumerate", "str", "int",
   "float", "bool", "list", "dict", "set", "tuple", "abs", "any", "all", "print"]

/-- `SAFE_METHOD_CALLS`. -/
def SAFE_METHOD_CALLS : List String :=
  ["append", "extend", "insert", "pop", "clear", "copy", "count", "index",
   "sort", "reverse", "get", "keys", "values", "items", "update", "setdefault",
   "strip", "lstrip", "rstrip", "split", "splitlines", "join", "replace",
   "lower", "upper", "startswith", "endswith", "format"]

/-- The keys of `SandboxEnvironment._bindings`. -/
def sandboxBindingNames : List String :=
  ["CONTEXT", "list_files", "read_file", "grep", "slice_text",
   "append_highlight", "add_citation", "sub_rlm", "set_final"]

/-- `name.startswith("__")`: a dunder-prefixed identifier. -/
def startsWithDunder (s : String) : Bool :=
  match s.data with
  | '_' :: '_' :: _ => true
  | _ => false

/-- `is_allowed_method_call_target` from `_validate_ast`. -/
def is_allowed_method_call_target (ac : List String) : Expr → Bool
  | .attribute base attr =>
    !(attr = "") && !(startsWithDunder attr) && SAFE_METHOD_CALLS.contains attr &&
    (match base with
     | .name i => !(startsWithDunder i)
     | .const (.strC _) => true
     | .const _ => false
     | .call (.name cid) _ _ => ac.contains cid
     | .call _ _ _ => false
     | _ => false)
  | _ => false

/-- Is a binary operator node on `ALLOWED_AST_NODES`? -/
def allowedBinOp : BinOpKind → Bool
  | .add | .sub | .mult | .div | .floorDiv | .modK | .pow => true
  | _ => false

/-- Is a unary operator node on `ALLOWED_AST_NODES`? -/
def allowedUnaryOp : UnaryOpKind → Bool
  | .uAdd | .uSub | .notK => true
  | .invert => false

/-- The per-node body of the validator's `for node in ast.walk(tree)` loop:
node-kind allow-list, the attribute/parent rule, the dunder-name rule, the
call-target rule and the dunder-keyword rule. -/
def nodeCheck (ac : List String) : FlatNode → Bool
  | .modN _ => true
  | .compN _ => true
  | .kwN (.mk arg _) =>
    match arg with
    | Option.some a => !(startsWithDunder a)
    | Option.none => true
  | .stmtN s =>
    match s with
    | .exprStmt _ | .assign _ _ | .ifS _ _ _ | .forS _ _ _ _ | .whileS _ _ _
    | .breakS | .continueS | .passS | .functionDef _ _ _ | .returnS _ => true
    | .augAssign _ op _ => allowedBinOp op
    | _ => false
  | .exprN e fl =>
    match e with
    | .name i => !(startsWithDunder i)
    | .attribute v a => fl && is_allowed_method_call_target ac (.attribute v a)
    | .const _ => true
    | .listLit _ | .tupleLit _ | .setLit _ | .dictLit _ _ | .subscript _ _
    | .sliceLit _ _ _ | .ifExp _ _ _ | .listComp _ _ | .setComp _ _
    | .genExp _ _ | .dictComp _ _ _ | .joinedStr _ | .formattedValue _ => true
    | .binOp _ op _ => allowedBinOp op
    | .unaryOp op _ => allowedUnaryOp op
    | .boolOp _ _ => true
    | .compare _ _ _ => true
    | .call f _ _ =>
      (match f with
       | .name i => ac.contains i
       | .attribute b a => is_allowed_method_call_target ac (.attribute b a)
       | _ => false)
    | .lambdaE _ _ | .starred _ | .namedExpr _ _ | .awaitE _
    | .yieldE _ | .yieldFrom _ => false

/-- `_validate_ast` for an already-parsed fragment: every walked node must
pass `nodeCheck` against the allowed-callables set
`SAFE_BUILTINS ∪ bindings ∪ defined functions`. -/
def validate_ast (bindings : List String) (m : PyMod) : Bool :=
  let ac := SAFE_BUILTIN_NAMES ++ bindings ++ definedFunctionNames m
  (walkMod m).all (nodeCheck ac)

/-! ## Executing validated fragments

`SandboxEnvironment.execute` parses+validates, then `exec`s the compiled
tree against the pre-seeded locals. The interpreter below covers the
fragment forms the end-to-end claims actually execute (constants, names,
container literals, direct helper calls, single-name assignment, `if`,
`pass`). Remaining allowed forms evaluate to a `WorkerErr.other` runtime
error; no theorem below executes such a form, and every theorem about
*rejected* fragments is independent of the interpreter by construction
(validation precedes execution in `execute`, as in the source). -/

/-- The sandbox's locals dictionary. -/
abbrev Env := List (String × PyVal)

/-- Python dict assignment: existing key keeps its position. -/
def envSet (k : String) (v : PyVal) : Env → Env
  | [] => [(k, v)]
  | (k', v') :: rest => if k' = k then (k', v) :: rest else (k', v') :: envSet k v rest

/-- Dict lookup. -/
def envGet (k : String) : Env → Option PyVal
  | [] => Option.none
  | (k', v) :: rest => if k' = k then some v else envGet k rest

/-- A host helper exposed to fragments, as a first-class value
(Python stores the bound methods themselves in the locals dict). -/
def helperVal (name : String) : PyVal := .str ("<helper " ++ name ++ ">")

/-- The `_bindings` table: `CONTEXT` plus the eight helper callables.
Helper callables are dispatched by name at call sites; their value form
only matters if a fragment stores them, which no verified fragment does. -/
def bindingsEnv (sb : SandboxState) : Env :=
  ("CONTEXT", PyVal.dict (sb.docs_by_path.map fun kv => (PyVal.str kv.1, PyVal.str kv.2.text)))
    :: (sandboxBindingNames.drop 1).map fun n => (n, helperVal n)

/-- `_refresh_bindings`: re-seed every binding name in the locals dict. -/
def refreshBindings (sb : SandboxState) (locals : Env) : Env :=
  (bindingsEnv sb).foldl (fun e kv => envSet kv.1 kv.2 e) locals

/-- Python truthiness for the embedded values. -/
def truthy : PyVal → Bool
  | .none => false
  | .bool b => b
  | .int n => decide (n ≠ 0)
  | .str s => decide (s ≠ "")
  | .list l => !l.isEmpty
  | .dict l => !l.isEmpty

/-- `int(...)` coercion for the argument positions that feed line numbers. -/
def toIntCoerce : PyVal → Option Int
  | .int n => some n
  | .bool b => some (if b then 1 else 0)
  | _ => Option.none

/-- Literal constants evaluate to themselves. -/
def constVal : Const → PyVal
  | .noneC => .none
  | .boolC b => .bool b
  | .intC n => .int n
  | .strC s => .str s
  | .otherC => .none

/-- Call a sandbox helper or safe builtin by name with evaluated arguments.
Returns the helper's value and the updated sandbox state. -/
def callHelper (h : String) (args : List PyVal) (sb : SandboxState) :
    Except (WorkerErr × SandboxState) (PyVal × SandboxState) :=
  match h, args with
  | "set_final", [v] => .ok (.none, set_final v sb)
  | "append_highlight", [v] => .ok (.none, append_highlight (pyStr v) sb)
  | "add_citation", [p, s, e] =>
    (match toIntCoerce s, toIntCoerce e with
     | some si, some ei =>
       match add_citation (pyStr p) si ei "reference" "" sb with
       | .ok sb' => .ok (.none, sb')
       | .error w => .error (w, sb)
     | _, _ => .error (.other, sb))
  | "add_citation", [p, s, e, sig] =>
    (match toIntCoerce s, toIntCoerce e with
     | some si, some ei =>
       match add_citation (pyStr p) si ei (pyStr sig) "" sb with
       | .ok sb' => .ok (.none, sb')
       | .error w => .error (w, sb)
     | _, _ => .error (.other, sb))
  | "add_citation", [p, s, e, sig, sn] =>
    (match toIntCoerce s, toIntCoerce e with
     | some si, some ei =>
       match add_citation (pyStr p) si ei (pyStr sig) (pyStr sn) sb with
       | .ok sb' => .ok (.none, sb')
       | .error w => .error (w, sb)
     | _, _ => .error (.other, sb))
  | "read_file", [p] =>
    (match read_file sb (pyStr p) 1 Option.none with
     | .ok s => .ok (.str s, sb)
     | .error w => .error (w, sb))
  | "read_file", [p, s] =>
    (match toIntCoerce s with
     | some si =>
       match read_file sb (pyStr p) si Option.none with
       | .ok t => .ok (.str t, sb)
       | .error w => .error (w, sb)
     | _ => .error (.other, sb))
  | "read_file", [p, s, e] =>
    (match toIntCoerce s, toIntCoerce e with
     | some si, some ei =>
       match read_file sb (pyStr p) si (some ei) with
       | .ok t => .ok (.str t, sb)
       | .error w => .error (w, sb)
     | _, _ => .error (.other, sb))
  | "list_files", [] => .ok (.list ((list_files sb).map .str), sb)
  | "slice_text", [t] => .ok (.str (slice_text (pyStr t) 0 Option.none), sb)
  | "slice_text", [t, s] =>
    (match toIntCoerce s with
     | some si => .ok (.str (slice_text (pyStr t) si Option.none), sb)
     | _ => .error (.other, sb))
  | "slice_text", [t, s, e] =>
    (match toIntCoerce s, toIntCoerce e with
     | some si, some ei => .ok (.str (slice_text (pyStr t) si (some ei)), sb)
     | _, _ => .error (.other, sb))
  | "len", [v] =>
    (match v with
     | .str s => .ok (.int s.length, sb)
     | .list l => .ok (.int l.length, sb)
     | .dict l => .ok (.int l.length, sb)
     | _ => .error (.other, sb))
  | "str", [v] => .ok (.str (pyStr v), sb)
  | _, _ => .error (.other, sb)

mutual
/-- Evaluate an expression; helper calls may update the sandbox state. -/
def evalExpr (env : Env) (sb : SandboxState) :
    Expr → Except (WorkerErr × SandboxState) (PyVal × SandboxState)
  | .const c => .ok (constVal c, sb)
  | .name i =>
    (match envGet i env with
     | some v => .ok (v, sb)
     | Option.none =>
       if SAFE_BUILTIN_NAMES.contains i then .ok (helperVal i, sb)
       else .error (.other, sb))
  | .listLit es =>
    (match evalExprs env sb es with
     | .ok (vs, sb') => .ok (.list vs, sb')
     | .error e => .error e)
  | .tupleLit es =>
    (match evalExprs env sb es with
     | .ok (vs, sb') => .ok (.list vs, sb')
     | .error e => .error e)
  | .dictLit ks vs =>
    (match evalExprs env sb ks with
     | .ok (kvals, sb') =>
       match evalExprs env sb' vs with
       | .ok (vvals, sb'') => .ok (.dict (kvals.zip vvals), sb'')
       | .error e => .error e
     | .error e => .error e)
  | .call (.name f) args [] =>
    (match evalExprs env sb args with
     | .ok (vs, sb') =>
       (match envGet f env with
        | some _ => callHelper f vs sb'
        | Option.none =>
          if SAFE_BUILTIN_NAMES.contains f then callHelper f vs sb'
          else .error (.other, sb'))
     | .error e => .error e)
  | .ifExp t b o =>
    (match evalExpr env sb t with
     | .ok (tv, sb') => if truthy tv then evalExpr env sb' b else evalExpr env sb' o
     | .error e => .error e)
  | _ => .error (.other, sb)

/-- Evaluate a list of expressions left to right. -/
def evalExprs (env : Env) (sb : SandboxState) :
    List Expr → Except (WorkerErr × SandboxState) (List PyVal × SandboxState)
  | [] => .ok ([], sb)
  | e :: es =>
    (match evalExpr env sb e with
     | .ok (v, sb') =>
       match evalExprs env sb' es with
       | .ok (vs, sb'') => .ok (v :: vs, sb'')
       | .error err => .error err
     | .error err => .error err)
end

mutual
/-- Execute one statement. Errors carry the locals and sandbox state as
mutated so far, matching CPython semantics where an exception does not roll
anything back. -/
def execStmt (env : Env) (sb : SandboxState) :
    Stmt → Except (WorkerErr × Env × SandboxState) (Env × SandboxState)
  | .passS => .ok (env, sb)
  | .exprStmt e =>
    (match evalExpr env sb e with
     | .ok (_, sb') => .ok (env, sb')
     | .error (w, sb') => .error (w, env, sb'))
  | .assign [.name n] v =>
    (match evalExpr env sb v with
     | .ok (val, sb') => .ok (envSet n val env, sb')
     | .error (w, sb') => .error (w, env, sb'))
  | .ifS t b o =>
    (match evalExpr env sb t with
     | .ok (tv, sb') => if truthy tv then execStmts env sb' b else execStmts env sb' o
     | .error (w, sb') => .error (w, env, sb'))
  | _ => .error (.other, env, sb)

/-- Execute a statement list in order. -/
def execStmts (env : Env) (sb : SandboxState) :
    List Stmt → Except (WorkerErr × Env × SandboxState) (Env × SandboxState)
  | [] => .ok (env, sb)
  | s :: ss =>
    (match execStmt env sb s with
     | .ok (env', sb') => execStmts env' sb' ss
     | .error e => .error e)
end

/-- `SandboxEnvironment.execute`: validate the fragment, re-seed the helper
bindings, then run it. A fragment the validator rejects never reaches the
interpreter and leaves both the locals and the sandbox state untouched. -/
def execute (m : PyMod) (locals : Env) (sb : SandboxState) :
    Except (WorkerErr × Env × SandboxState) (Env × SandboxState) :=
  if validate_ast sandboxBindingNames m then
    match m with
    | .module body => execStmts (refreshBindings sb locals) sb body
  else .error (.sandboxViolation, locals, sb)

/-! ## The REPL controller (`main` loop) and its failure records -/

/-- The observable outcome of a worker run: the `ok` flag, `error_code`,
process exit code, and the `stats` object of the emitted JSON as an ordered
key/value list — presence and absence of keys is part of the behavior.
The model's clock reads a constant 0 (the mocked CLIs are instantaneous),
so `elapsed_seconds` is 0. -/
structure WorkerResult where
  ok : Bool
  error_code : Option String
  exitCode : Nat
  stats : List (String × Int)
deriving DecidableEq, Repr

/-- `estimate_tokens(char_count)`. -/
def estimate_tokens (charCount : Nat) : Nat := (charCount + 3) / 4

/-- The `stats` object of every *failure* record in `main`: exactly
`step_count`, `subcall_count` and `elapsed_seconds` — nothing else. -/
def errStats (st : ExecutionState) : List (String × Int) :=
  [("step_count", st.step_count), ("subcall_count", st.subcall_count),
   ("elapsed_seconds", 0)]

/-- The `stats` object of the *success* record. -/
def successStats (docs : List Document) (st : ExecutionState) : List (String × Int) :=
  [("file_count", (docs.length : Int)),
   ("line_count", ((docs.map (fun d => d.lines.length)).sum : Int)),
   ("char_count", ((docs.map (fun d => d.text.length)).sum : Int)),
   ("estimated_tokens", (estimate_tokens ((docs.map (fun d => d.text.length)).sum) : Int)),
   ("step_count", st.step_count), ("subcall_count", st.subcall_count),
   ("elapsed_seconds", 0)]

/-- The `while sandbox.final_value is None` loop of `main`, with the root
CLI mocked by `frags` (the fragment the mock's stdout parses to at each
step, 1-based). The fuel argument is structural recursion bookkeeping only:
`runWorker` supplies `max_steps + 1`, which the step budget makes
sufficient, so the fuel-exhaustion branch is unreachable. -/
def workerLoop (frags : Nat → PyMod) :
    Nat → ExecutionState → Env → SandboxState →
    Except (WorkerErr × ExecutionState) (ExecutionState × SandboxState)
  | 0, st, _, _ => .error (.other, st)
  | fuel + 1, st, env, sb =>
    if sb.final_value.isNone then
      match tick_step 0 st with
      | .error (_, st') => .error (.limit, st')
      | .ok st' =>
        -- the mocked root CLI returns rc 0 with the step's fragment
        match execute (frags st'.step_count.toNat) env sb with
        | .error (w, _, _) => .error (w, st')
        | .ok (env', sb') =>
          let st'' := { st' with
            history := truncHistory (st'.history ++ [.rootEntry 0]) }
          if sb'.final_value.isNone ∧ st''.step_count ≥ st''.max_steps then
            .error (.limit, st'')
          else workerLoop frags fuel st'' env' sb'
    else .ok (st, sb)

/-- `main` for a run whose root CLI is mocked by `frags` and whose context
holds `docs`: clamp the limits, run the loop, and map the error taxonomy to
`(ok, error_code, exit code, stats)` exactly as the handlers do. -/
def runWorker (frags : Nat → PyMod)
    (max_steps max_depth timeout_seconds : Int) (docs : List Document) :
    WorkerResult :=
  let st0 : ExecutionState :=
    { max_steps := max 1 max_steps, max_depth := max 1 max_depth,
      timeout_seconds := max 1 timeout_seconds,
      max_subcalls := max 1 (max_steps * 2) }
  let sb0 := initSandbox docs
  let env0 := refreshBindings sb0 []
  match workerLoop frags ((max 1 max_steps).toNat + 1) st0 env0 sb0 with
  | .ok (st, _sb) =>
    { ok := true, error_code := Option.none, exitCode := 0, stats := successStats docs st }
  | .error (.limit, st) =>
    { ok := false, error_code := some "limit_exceeded", exitCode := 2, stats := errStats st }
  | .error (.sandboxViolation, st) =>
    { ok := false, error_code := some "sandbox_violation", exitCode := 1, stats := errStats st }
  | .error (.modelFail, st) =>
    { ok := false, error_code := some "model_invocation_failed", exitCode := 1, stats := errStats st }
  | .error (.other, st) =>
    { ok := false, error_code := some "worker_failure", exitCode := 1, stats := errStats st }

/-! ## Code extraction (`extract_python_code`)

`re.findall(r"```(?:python)?\s*(.*?)```", raw, IGNORECASE | DOTALL)` scans
left to right for a `` ``` `` fence, optionally eats a case-insensitive
`python` tag, greedily eats whitespace, then captures lazily up to the next
`` ``` `` fence; scanning resumes after the closing fence. The scanner
below reproduces that procedure directly (the greedy/lazy split is
determined here: `\s*` can never cross a backtick, and a missing closing
fence aborts all further matches because any later match needs two fences). -/

/-- The three-backtick fence. -/
def fenceChars : List Char := ['`', '`', '`']

/-- Skip to just past the first `` ``` `` occurrence. -/
def afterFence : List Char → Option (List Char)
  | [] => Option.none
  | c :: rest =>
    if (c :: rest).take 3 = fenceChars then some ((c :: rest).drop 3)
    else afterFence rest

/-- Split at the next `` ``` ``: the text before it and the text after. -/
def upToFence : List Char → Option (List Char × List Char)
  | [] => Option.none
  | c :: rest =>
    if (c :: rest).take 3 = fenceChars then some ([], (c :: rest).drop 3)
    else
      match upToFence rest with
      | some (a, b) => some (c :: a, b)
      | Option.none => Option.none

/-- Case-insensitive test for a literal `python` tag at the front. -/
def hasPythonTag (cs : List Char) : Bool :=
  (cs.take 6).map Char.toLower == ['p', 'y', 't', 'h', 'o', 'n']

theorem afterFence_length :
    ∀ s r, afterFence s = some r → r.length + 3 ≤ s.length := by
  intro s
  induction s with
  | nil => intro r h; simp [afterFence] at h
  | cons c rest ih =>
    intro r h
    rw [afterFence] at h
    split at h
    · rename_i hf
      have hlen : rest.length ≥ 2 := by
        have := congrArg List.length hf
        simp [fenceChars, List.length_take, List.length_cons] at this
        omega
      simp only [Option.some.injEq] at h
      subst h
      simp only [List.length_drop, List.length_cons]
      omega
    · have := ih r h
      simp only [List.length_cons]
      omega

theorem upToFence_length :
    ∀ s a b, upToFence s = some (a, b) → b.length + 3 ≤ s.length := by
  intro s
  induction s with
  | nil => intro a b h; simp [upToFence] at h
  | cons c rest ih =>
    intro a b h
    rw [upToFence] at h
    split at h
    · rename_i hf
      have hlen : rest.length ≥ 2 := by
        have := congrArg List.length hf
        simp [fenceChars, List.length_take, List.length_cons] at this
        omega
      simp only [Option.some.injEq, Prod.mk.injEq] at h
      rw [← h.2]
      simp only [List.length_drop, List.length_cons]
      omega
    · revert h
      cases hu : upToFence rest with
      | none => intro h; simp at h
      | some ab =>
        intro h
        obtain ⟨a', b'⟩ := ab
        have := ih a' b' hu
        simp only [Option.some.injEq, Prod.mk.injEq] at h
        obtain ⟨hha, hhb⟩ := h
        subst hhb
        simp only [List.length_cons]
        omega

/-- One `findall` scan, with an explicit structural recursion bound.
Each successful iteration consumes a complete fence pair (at least six
characters), so the bound `s.length` that `fencedBlocks` supplies is never
reached. -/
def fencedBlocksF : Nat → List Char → List (List Char)
  | 0, _ => []
  | fuel + 1, s =>
    match afterFence s with
    | Option.none => []
    | some rest =>
      let rest1 := if hasPythonTag rest then rest.drop 6 else rest
      let rest2 := rest1.dropWhile pyIsSpace
      match upToFence rest2 with
      | Option.none => []
      | some (content, rest3) => content :: fencedBlocksF fuel rest3

/-- All captured groups of the `findall`, in scan order. -/
def fencedBlocks (s : List Char) : List (List Char) := fencedBlocksF s.length s

/-- Stable length-descending order used by `sorted(fenced, key=len,
reverse=True)`: keep `a` before `b` when `a` is at least as long. -/
def lenGe (a b : List Char) : Prop := b.length ≤ a.length

instance : DecidableRel lenGe := fun a b => Nat.decLe b.length a.length

/-- `extract_python_code(text)`: strip; fail when empty; prefer the longest
fenced block (stripped) when fences exist and that block is nonempty after
stripping; otherwise fall back to the stripped full text. -/
def extract_python_code (text : String) : Except WorkerErr String :=
  let raw := pyStrip text.data
  if raw.isEmpty then .error .other
  else
    let fenced := fencedBlocks raw
    if fenced.isEmpty then .ok raw.asString
    else
      let block := pyStrip ((fenced.insertionSort lenGe).headD [])
      if block.isEmpty then .ok raw.asString else .ok block.asString

/-! ## C1: dunder identifiers are rejected by the validator -/

/-- A dunder identifier in one of the positions the claim enumerates:
a `Name` node's id, an `Attribute` node's attribute, or a keyword
argument's name. -/
def isDunderOccurrence : FlatNode → Bool
  | .exprN (.name i) _ => startsWithDunder i
  | .exprN (.attribute _ a) _ => startsWithDunder a
  | .kwN (.mk (Option.some a) _) => startsWithDunder a
  | _ => false

/-- The fragment `x = (1).__class__` as parsed. -/
def dunderFrag : PyMod :=
  .module [.assign [.name "x"] (.attribute (.const (.intC 1)) "__class__")]

/-- C1: every fragment containing an identifier beginning with `__` in any
position it can appear (names, attributes, keyword argument names) fails
validation, whatever the helper bindings are; in particular the fragment
`x = (1).__class__` is rejected, and a run whose root model keeps returning
that fragment ends with `error_code = "sandbox_violation"` and process exit
code 1. -/
theorem c1_dunder_rejected :
    (∀ (bindings : List String) (m : PyMod),
        (∃ n ∈ walkMod m, isDunderOccurrence n = true) →
        validate_ast bindings m = false) ∧
    validate_ast sandboxBindingNames dunderFrag = false ∧
    ((runWorker (fun _ => dunderFrag) 3 2 60 []).error_code = some "sandbox_violation" ∧
      (runWorker (fun _ => dunderFrag) 3 2 60 []).exitCode = 1) := by
  refine ⟨?_, by decide, by decide, by decide⟩
  intro bindings m ⟨n, hmem, hocc⟩
  rw [validate_ast]
  rw [List.all_eq_false]
  refine ⟨n, hmem, ?_⟩
  cases n with
  | exprN e fl =>
    cases e <;> simp_all [isDunderOccurrence, nodeCheck, is_allowed_method_call_target]
  | kwN k =>
    obtain ⟨arg, v⟩ := k
    cases arg <;> simp_all [isDunderOccurrence, nodeCheck]
  | compN c => simp [isDunderOccurrence] at hocc
  | stmtN s => simp [isDunderOccurrence] at hocc
  | modN m' => simp [isDunderOccurrence] at hocc

/-- Witness for C1: the universal part applied to the concrete fragment
`__import__` (a dunder `Name` node), with the dunder occurrence exhibited
explicitly. -/
theorem c1_dunder_rejected_witness :
    validate_ast ["set_final"] (.module [.exprStmt (.name "__import__")]) = false :=
  c1_dunder_rejected.1 ["set_final"] (.module [.exprStmt (.name "__import__")])
    ⟨.exprN (.name "__import__") false,
      by simp [walkMod, walkStmts, walkStmt, walkExpr],
      by decide⟩

/-! ## C3: rejected fragments have no side effects -/

/-- C3: for every fragment the validator rejects, `execute` returns the
`SandboxViolation` error with the locals and the sandbox state exactly as
they were — in particular the highlights, citations and `final` slot are
unchanged (validation happens strictly before any execution effect). -/
theorem c3_rejected_no_side_effects :
    ∀ (m : PyMod) (locals : Env) (sb : SandboxState),
      validate_ast sandboxBindingNames m = false →
      execute m locals sb = .error (.sandboxViolation, locals, sb) ∧
      (∀ w env' sb', execute m locals sb = .error (w, env', sb') →
        sb'.highlights = sb.highlights ∧ sb'.citations = sb.citations ∧
        sb'.final_value = sb.final_value) := by
  intro m locals sb h
  constructor
  · simp [execute, h]
  · intro w env' sb' heq
    simp [execute, h] at heq
    rw [heq.2.2]
    exact ⟨rfl, rfl, rfl⟩

/-- Witness for C3: the fragment `import os` is rejected and leaves a fresh
sandbox untouched. -/
theorem c3_rejected_no_side_effects_witness :
    execute (.module [.importS]) [] (initSandbox []) =
      .error (.sandboxViolation, [], initSandbox []) :=
  (c3_rejected_no_side_effects (.module [.importS]) [] (initSandbox []) (by decide)).1

/-! ## C2: the final slot -/

/-- The fragment `set_final(1)` followed by `set_final(None)`, which the
validator accepts. -/
def clearFrag : PyMod :=
  .module [.exprStmt (.call (.name "set_final") [.const (.intC 1)] []),
           .exprStmt (.call (.name "set_final") [.const .noneC] [])]

/-- C2 is false as stated: `set_final` writes its argument into the slot
unconditionally and `None` is the unset marker, so the helper-call sequence
`set_final(1); set_final(None)` — a fragment the validator accepts and the
sandbox executes — takes the slot from set back to unset. -/
theorem c2_counterexample :
    (set_final (.int 1) (initSandbox [])).final_value = PyVal.int 1 ∧
    (set_final (.int 1) (initSandbox [])).final_value ≠ PyVal.none ∧
    (set_final PyVal.none (set_final (.int 1) (initSandbox []))).final_value = PyVal.none ∧
    validate_ast sandboxBindingNames clearFrag = true ∧
    (match execute clearFrag (refreshBindings (initSandbox []) []) (initSandbox []) with
     | .ok (_, sb') => sb'.final_value = PyVal.none
     | .error _ => False) := by
  refine ⟨rfl, fun h => PyVal.noConfusion h, rfl, by decide, ?_⟩
  exact rfl

/-- C2 amended: the `final` slot is written only by `set_final`, which
overwrites it with its argument — so `set_final(None)` can return a set
slot to unset within a fragment. No other helper changes the slot, and the
controller runs no further fragment once a fragment has left the slot set:
the slot is never cleared *across* fragments. -/
theorem c2_final_slot_amended :
    (∀ (v : PyVal) (sb : SandboxState), (set_final v sb).final_value = v) ∧
    (∀ (t : String) (sb : SandboxState),
        (append_highlight t sb).final_value = sb.final_value) ∧
    (∀ (p : String) (s e : Int) (sig sn : String) (sb sb' : SandboxState),
        add_citation p s e sig sn sb = .ok sb' →
        sb'.final_value = sb.final_value) ∧
    (∀ (frags : Nat → PyMod) (fuel : Nat) (st : ExecutionState) (env : Env)
        (sb : SandboxState),
        sb.final_value.isNone = false →
        workerLoop frags (fuel + 1) st env sb = .ok (st, sb)) := by
  refine ⟨fun v sb => rfl, ?_, ?_, ?_⟩
  · intro t sb
    rw [append_highlight]
    split
    · rfl
    · rfl
  · intro p s e sig sn sb sb' h
    rw [add_citation] at h
    split at h
    · exact (Except.ok.inj h) ▸ rfl
    · split at h
      · exact absurd h (by simp)
      · have := Except.ok.inj h
        rw [← this]
  · intro frags fuel st env sb h
    rw [workerLoop, h]
    simp

/-- Witness for C2 (amended): concrete slot writes, a helper that leaves the
slot alone, and the controller loop halting on an already-set slot. -/
theorem c2_final_slot_amended_witness :
    (set_final (.int 7) (initSandbox [])).final_value = PyVal.int 7 ∧
    (append_highlight "note" (initSandbox [])).final_value = PyVal.none ∧
    workerLoop (fun _ => .module [.passS]) 1
      { max_steps := 3, max_depth := 2, timeout_seconds := 60, max_subcalls := 6 }
      [] (set_final (.int 7) (initSandbox [])) =
      .ok ({ max_steps := 3, max_depth := 2, timeout_seconds := 60, max_subcalls := 6 },
           set_final (.int 7) (initSandbox [])) :=
  ⟨c2_final_slot_amended.1 (.int 7) (initSandbox []),
   c2_final_slot_amended.2.1 "note" (initSandbox []),
   c2_final_slot_amended.2.2.2 (fun _ => .module [.passS]) 0 _ [] _ rfl⟩

/-! ## C4: the empty-context / no-final scenario -/

/-- C4 is false in one conjunct: with an empty context, `pass` fragments and
`max_steps = 3` the run does end with `ok = false`,
`error_code = "limit_exceeded"`, `stats.step_count = 3` and exit code 2 —
but the failure record's `stats` object has *no* `file_count` key at all
(it holds only `step_count`, `subcall_count`, `elapsed_seconds`), so
`stats.file_count = 0` fails. -/
theorem c4_counterexample :
    (runWorker (fun _ => .module [.passS]) 3 2 60 []).ok = false ∧
    (runWorker (fun _ => .module [.passS]) 3 2 60 []).error_code = some "limit_exceeded" ∧
    (runWorker (fun _ => .module [.passS]) 3 2 60 []).exitCode = 2 ∧
    (runWorker (fun _ => .module [.passS]) 3 2 60 []).stats.lookup "step_count" = some 3 ∧
    (runWorker (fun _ => .module [.passS]) 3 2 60 []).stats.lookup "file_count" = Option.none ∧
    ¬((runWorker (fun _ => .module [.passS]) 3 2 60 []).stats.lookup "file_count" = some 0) := by
  refine ⟨by decide, by decide, by decide, by decide, by decide, by decide⟩

/-- C4 amended: the scenario's full observable outcome — `ok = false`,
`error_code = "limit_exceeded"`, exit code 2, and a stats object holding
exactly `step_count = 3`, `subcall_count = 0` and `elapsed_seconds`
(no `file_count` entry). -/
theorem c4_limit_exceeded_amended :
    runWorker (fun _ => .module [.passS]) 3 2 60 [] =
      { ok := false, error_code := some "limit_exceeded", exitCode := 2,
        stats := [("step_count", 3), ("subcall_count", 0), ("elapsed_seconds", 0)] } := by
  decide

/-! ## C5: subcall depth checks -/

/-- C5: `sub_rlm` rejects `depth < 1` and `depth > max_depth` with a
`LimitError` before counting the subcall and before invoking any child
process (the state is returned untouched and the invoked flag is false),
while `depth = max_depth` is permitted: with budget room, no timeout and a
successful child, the call succeeds and counts exactly one subcall. -/
theorem c5_subcall_depth :
    (∀ (resp : CliResponse) (prompt : String) (depth : Int) (elapsed : ℚ)
        (st : ExecutionState),
        depth < 1 ∨ depth > st.max_depth →
        sub_rlm resp prompt depth elapsed st = (.error (.limit, st), false)) ∧
    (∀ (resp : CliResponse) (prompt : String) (elapsed : ℚ) (st : ExecutionState),
        1 ≤ st.max_depth →
        st.subcall_count + 1 ≤ st.max_subcalls →
        ¬(st.timeout_seconds > 0 ∧ (st.timeout_seconds : ℚ) ≤ elapsed) →
        resp.ok = true →
        sub_rlm resp prompt st.max_depth elapsed st =
          (.ok (pyStripStr resp.stdout,
              { st with subcall_count := st.subcall_count + 1,
                        history := truncHistory
                          (st.history ++ [.subcallEntry resp.returncode]) }),
            true)) := by
  constructor
  · intro resp prompt depth elapsed st h
    by_cases h1 : depth < 1
    · simp only [sub_rlm, next_subcall, if_pos h1]
    · have h2 : depth > st.max_depth := by
        rcases h with h | h
        · omega
        · exact h
      simp only [sub_rlm, next_subcall, if_neg h1, if_pos h2]
  · intro resp prompt elapsed st hd hs ht hok
    simp only [sub_rlm, next_subcall, check_timeout, remainingTimeoutRaises,
      decide_eq_true_eq]
    split_ifs with h1 h2 h3 h4
    · omega
    · omega
    · omega
    · exact absurd ⟨h4.1, le_of_lt h4.2⟩ ht
    · dsimp only
      rw [if_neg (fun hc : st.timeout_seconds > 0 ∧
          (st.timeout_seconds : ℚ) - elapsed ≤ 0 =>
        ht ⟨hc.1, by linarith [hc.2]⟩)]

/-- Witness for C5: with `max_depth = 2`, `sub_rlm` at depth 2 succeeds and
counts one subcall; at depth 3 it fails with the limit error, counts
nothing and invokes nothing. -/
theorem c5_subcall_depth_witness :
    (sub_rlm { ok := true, returncode := 0, stdout := " out ", stderr := "" }
        "q" 2 0 { max_steps := 3, max_depth := 2, timeout_seconds := 60, max_subcalls := 6 } =
      (.ok ("out", { max_steps := 3, max_depth := 2, timeout_seconds := 60,
                     max_subcalls := 6, subcall_count := 1,
                     history := [.subcallEntry 0] }), true)) ∧
    (sub_rlm { ok := true, returncode := 0, stdout := " out ", stderr := "" }
        "q" 3 0 { max_steps := 3, max_depth := 2, timeout_seconds := 60, max_subcalls := 6 } =
      (.error (.limit, { max_steps := 3, max_depth := 2, timeout_seconds := 60,
                         max_subcalls := 6 }), false)) := by
  constructor
  · have := c5_subcall_depth.2
      { ok := true, returncode := 0, stdout := " out ", stderr := "" } "q" 0
      { max_steps := 3, max_depth := 2, timeout_seconds := 60, max_subcalls := 6 }
      (by decide) (by decide) (by intro h; exact absurd h.2 (by norm_num)) rfl
    simpa [pyStripStr, pyStrip, pyIsSpace, truncHistory] using this
  · exact c5_subcall_depth.1
      { ok := true, returncode := 0, stdout := " out ", stderr := "" } "q" 3 0
      { max_steps := 3, max_depth := 2, timeout_seconds := 60, max_subcalls := 6 }
      (Or.inr (by decide))

/-! ## C6: `read_file` -/

/-- C6: `read_file` raises `SandboxViolation` on a path not in the loaded
documents; with a known document it clamps `start` to at least 1 and `end`
to at least `start`, returns the empty string (not an error) when the
clamped start exceeds the line count, and otherwise returns the 1-based
inclusive line slice `lines[start..end]`. -/
theorem c6_read_file :
    (∀ (sb : SandboxState) (path : String) (s : Int) (e : Option Int),
        assocGet path sb.docs_by_path = Option.none →
        read_file sb path s e = .error .sandboxViolation) ∧
    (∀ (sb : SandboxState) (path : String) (doc : Document) (s : Int) (e : Option Int),
        assocGet path sb.docs_by_path = some doc →
        max 1 s > (doc.lines.length : Int) →
        read_file sb path s e = .ok "") ∧
    (∀ (sb : SandboxState) (path : String) (doc : Document) (s e : Int),
        assocGet path sb.docs_by_path = some doc →
        max 1 s ≤ (doc.lines.length : Int) →
        read_file sb path s (some e) =
          .ok (String.intercalate "\n"
            ((doc.lines.drop ((max 1 s).toNat - 1)).take
              ((max (max 1 s) e).toNat - (max 1 s).toNat + 1)))) := by
  refine ⟨?_, ?_, ?_⟩
  · intro sb path s e h
    simp [read_file, h]
  · intro sb path doc s e h hgt
    simp only [read_file, h]
    rw [if_pos hgt]
  · intro sb path doc s e h hle
    simp only [read_file, h]
    rw [if_neg (by omega)]
    have h1 : (max 1 s - 1).toNat = (max 1 s).toNat - 1 := by omega
    have h2 : (max (max 1 s) e - (max 1 s - 1)).toNat =
        (max (max 1 s) e).toNat - (max 1 s).toNat + 1 := by omega
    rw [h1, h2]

/-- A three-line document used by the `read_file` witness. -/
def docA : Document :=
  { path := "a.py", text := "l1\nl2\nl3", lines := ["l1", "l2", "l3"] }

/-- Witness for C6: reading lines 2..9 of a three-line file slices from
line 2 to the end. -/
theorem c6_read_file_witness :
    read_file { docs_by_path := [("a.py", docA)] } "a.py" 2 (some 9) =
      .ok (String.intercalate "\n"
        ((docA.lines.drop ((max 1 (2:Int)).toNat - 1)).take
          ((max (max 1 (2:Int)) 9).toNat - (max 1 (2:Int)).toNat + 1))) :=
  c6_read_file.2.2 { docs_by_path := [("a.py", docA)] } "a.py" docA 2 9
    (by decide) (by decide)

/-! ## C9: `add_citation` with a blank path -/

/-- C9: `add_citation` with an empty or whitespace-only path is a silent
no-op — normalization rejects the record before the unknown-path check, so
no `SandboxViolation` is raised and the whole sandbox state (citations
included) is returned unchanged. -/
theorem c9_blank_path_citation_noop :
    ∀ (path : String) (s e : Int) (sig snip : String) (sb : SandboxState),
      pyStripStr path = "" →
      add_citation path s e sig snip sb = .ok sb := by
  intro path s e sig snip sb h
  rw [add_citation, normalize_citation]
  simp [h]

/-- Witness for C9: a whitespace-only path on a fresh sandbox. -/
theorem c9_blank_path_citation_noop_witness :
    add_citation "   " 4 2 "sig" "snip" (initSandbox []) = .ok (initSandbox []) :=
  c9_blank_path_citation_noop "   " 4 2 "sig" "snip" (initSandbox []) (by decide)

/-! ## C10: `grep` over all documents is path-then-line ordered -/

/-- Every match record carries the scanned path and a line number at least
the starting index of the scan. -/
theorem grepDocMatches_mem (pred : String → Bool) (p : String) :
    ∀ (n : Nat) (lines : List String) (c : Citation),
      c ∈ grepDocMatches pred p n lines → c.path = p ∧ (n : Int) ≤ c.start_line := by
  intro n lines
  induction lines generalizing n with
  | nil => intro c h; simp [grepDocMatches] at h
  | cons l rest ih =>
    intro c h
    rw [grepDocMatches] at h
    rcases List.mem_append.1 h with h1 | h2
    · split at h1
      · simp only [List.mem_singleton] at h1
        subst h1
        exact ⟨rfl, by simp⟩
      · simp at h1
    · have := ih (n + 1) c h2
      exact ⟨this.1, by push_cast at this ⊢; omega⟩

/-- Within one document the match records have strictly increasing line
numbers (the scan enumerates lines in order). -/
theorem grepDocMatches_pairwise (pred : String → Bool) (p : String) :
    ∀ (n : Nat) (lines : List String),
      List.Pairwise (fun a b => a.start_line < b.start_line)
        (grepDocMatches pred p n lines) := by
  intro n lines
  induction lines generalizing n with
  | nil => simp [grepDocMatches]
  | cons l rest ih =>
    rw [grepDocMatches]
    split
    · simp only [List.singleton_append, List.pairwise_cons]
      refine ⟨?_, ih (n + 1)⟩
      intro b hb
      have := (grepDocMatches_mem pred p (n + 1) rest b hb).2
      show (n : Int) < b.start_line
      push_cast at this ⊢
      omega
    · rw [List.nil_append]
      exact ih (n + 1)

/-- The key list of a dict insertion: unchanged if the key exists, appended
otherwise. -/
theorem dictInsert_keys (k : String) (v : Document) :
    ∀ (m : List (String × Document)),
      (dictInsert k v m).map Prod.fst =
        if k ∈ m.map Prod.fst then m.map Prod.fst else m.map Prod.fst ++ [k] := by
  intro m
  induction m with
  | nil => simp [dictInsert]
  | cons kv rest ih =>
    obtain ⟨k', v'⟩ := kv
    rw [dictInsert]
    by_cases h : k' = k
    · subst h
      simp
    · rw [if_neg h]
      simp only [List.map_cons, ih]
      by_cases h2 : k ∈ rest.map Prod.fst
      · rw [if_pos h2, if_pos (by simp [h2])]
      · rw [if_neg h2, if_neg (by simp [h2]; exact fun hh => h hh.symm)]
        simp

/-- Dict insertion keeps the key list duplicate-free. -/
theorem dictInsert_nodup_keys (k : String) (v : Document) (m : List (String × Document))
    (h : (m.map Prod.fst).Nodup) : ((dictInsert k v m).map Prod.fst).Nodup := by
  rw [dictInsert_keys]
  split
  · exact h
  · rename_i hnot
    simp only [List.nodup_append, List.nodup_cons]
    refine ⟨h, by simp, ?_⟩
    intro a ha
    simp only [List.mem_singleton]
    intro hb
    subst hb
    exact hnot ha

/-- `docs_by_path` is a genuine dictionary: its keys are duplicate-free. -/
theorem docsByPath_nodup_keys (docs : List Document) :
    ((docsByPath docs).map Prod.fst).Nodup := by
  rw [docsByPath]
  suffices h : ∀ (m : List (String × Document)), (m.map Prod.fst).Nodup →
      (((docs.foldl (fun m d => dictInsert d.path d m)) m).map Prod.fst).Nodup by
    exact h [] (by simp)
  induction docs with
  | nil => intro m hm; simpa using hm
  | cons d rest ih =>
    intro m hm
    simp only [List.foldl_cons]
    exact ih (dictInsert d.path d m) (dictInsert_nodup_keys d.path d m hm)

/-- `charListLt` is asymmetric. -/
theorem charListLt_asymm :
    ∀ a b, charListLt a b = true → charListLt b a = false := by
  intro a
  induction a with
  | nil => intro b h; cases b <;> simp [charListLt]
  | cons x xs ih =>
    intro b h
    cases b with
    | nil => simp [charListLt] at h
    | cons y ys =>
      rw [charListLt] at h ⊢
      split at h
      · rw [if_neg (by omega), if_pos (by omega)]
      · split at h
        · exact absurd h (by simp)
        · rename_i h1 h2
          rw [if_neg (by omega), if_neg (by omega)]
          exact ih ys h

/-- `charListLt` is transitive. -/
theorem charListLt_trans :
    ∀ a b c, charListLt a b = true → charListLt b c = true → charListLt a c = true := by
  intro a
  induction a with
  | nil =>
    intro b c hab hbc
    cases b with
    | nil => simp [charListLt] at hab
    | cons y ys =>
      cases c with
      | nil => simp [charListLt] at hbc
      | cons z zs => simp [charListLt]
  | cons x xs ih =>
    intro b c hab hbc
    cases b with
    | nil => simp [charListLt] at hab
    | cons y ys =>
      cases c with
      | nil => simp [charListLt] at hbc
      | cons z zs =>
        rw [charListLt] at hab hbc ⊢
        split at hab
        · split at hbc
          · rw [if_pos (by omega)]
          · split at hbc
            · exact absurd hbc (by simp)
            · rw [if_pos (by omega)]
        · split at hab
          · exact absurd hab (by simp)
          · split at hbc
            · rw [if_pos (by omega)]
            · split at hbc
              · exact absurd hbc (by simp)
              · rename_i hxy hyx hyz hzy
                rw [if_neg (by omega), if_neg (by omega)]
                exact ih ys zs hab hbc

/-- `charListLt` is trichotomous. -/
theorem charListLt_trich :
    ∀ a b, charListLt a b = true ∨ a = b ∨ charListLt b a = true := by
  intro a
  induction a with
  | nil => intro b; cases b <;> simp [charListLt]
  | cons x xs ih =>
    intro b
    cases b with
    | nil => simp [charListLt]
    | cons y ys =>
      by_cases h1 : x.toNat < y.toNat
      · exact Or.inl (by rw [charListLt, if_pos h1])
      · by_cases h2 : y.toNat < x.toNat
        · refine Or.inr (Or.inr ?_)
          rw [charListLt, if_pos h2]
        · have hxy : x = y := Char.ext (UInt32.ext (by omega : x.toNat = y.toNat))
          subst hxy
          rcases ih ys with h | h | h
          · exact Or.inl (by rw [charListLt, if_neg (by omega), if_neg (by omega)]; exact h)
          · exact Or.inr (Or.inl (by rw [h]))
          · refine Or.inr (Or.inr ?_)
            rw [charListLt, if_neg (by omega), if_neg (by omega)]
            exact h

instance : IsTotal (String × Document) pathKeyLe :=
  ⟨fun a b => by
    rw [pathKeyLe, pathKeyLe, strLe, strLe, charListLe, charListLe]
    by_cases h : charListLt b.1.data a.1.data = true
    · right
      rw [charListLt_asymm _ _ h]
      rfl
    · left
      simp [h]⟩

instance : IsTrans (String × Document) pathKeyLe :=
  ⟨fun a b c hab hbc => by
    rw [pathKeyLe, strLe, charListLe] at hab hbc ⊢
    simp only [Bool.not_eq_true', Bool.not_eq_true] at hab hbc ⊢
    by_contra hlt
    simp only [Bool.not_eq_false] at hlt
    rcases charListLt_trich a.1.data b.1.data with h | h | h
    · exact absurd (charListLt_trans _ _ _ hlt h) (by simp [hbc])
    · rw [h] at hlt
      simp [hlt] at hbc
    · simp [h] at hab⟩

/-- The ordering C10 asserts on `grep`'s output: lexicographically ascending
document path (Python's code-point string order) and, within a document,
ascending line number. -/
def citOrder (a b : Citation) : Prop :=
  charListLt a.path.data b.path.data = true ∨
    (a.path = b.path ∧ a.start_line < b.start_line)

/-- C10: for every pattern, `grep` with `path=None` over the loaded
documents returns a list ordered by ascending path and, within each
document, ascending line number — documents are scanned in sorted-path
order, not load order. -/
theorem c10_grep_sorted :
    ∀ (pred : String → Bool) (docs : List Document) (mm : Int) (out : List Citation),
      grep (initSandbox docs) pred Option.none mm = .ok out →
      List.Pairwise citOrder out := by
  intro pred docs mm out h
  simp only [grep, initSandbox] at h
  have hout := Except.ok.inj h
  subst hout
  apply List.Pairwise.sublist (List.take_sublist _ _)
  rw [List.pairwise_flatten]
  set ts := (docsByPath docs).insertionSort pathKeyLe with hts
  have hsorted : List.Pairwise pathKeyLe ts :=
    List.sorted_insertionSort _ _
  have hperm : ts.Perm (docsByPath docs) := List.perm_insertionSort _ _
  have hnodup : (ts.map Prod.fst).Nodup :=
    ((hperm.map Prod.fst).nodup_iff).2 (docsByPath_nodup_keys docs)
  have hne : List.Pairwise (fun (a b : String × Document) => a.1 ≠ b.1) ts :=
    List.pairwise_map.1 hnodup
  have hlt : List.Pairwise
      (fun (a b : String × Document) => charListLt a.1.data b.1.data = true) ts := by
    apply (hsorted.and hne).imp
    intro a b hab
    rcases charListLt_trich a.1.data b.1.data with h | h | h
    · exact h
    · exact absurd (String.ext h) hab.2
    · have := hab.1
      rw [pathKeyLe, strLe, charListLe, h] at this
      simp at this
  constructor
  · intro l hl
    obtain ⟨t, _ht, rfl⟩ := List.mem_map.1 hl
    apply List.Pairwise.imp_of_mem ?_ (grepDocMatches_pairwise pred t.1 1 t.2.lines)
    intro a b ha hb hlt'
    exact Or.inr ⟨(grepDocMatches_mem pred t.1 1 t.2.lines a ha).1.trans
      (grepDocMatches_mem pred t.1 1 t.2.lines b hb).1.symm, hlt'⟩
  · rw [List.pairwise_map]
    apply hlt.imp
    intro t1 t2 h12 a ha b hb
    refine Or.inl ?_
    rw [(grepDocMatches_mem pred t1.1 1 t1.2.lines a ha).1,
      (grepDocMatches_mem pred t2.1 1 t2.2.lines b hb).1]
    exact h12

/-- Two documents loaded out of path order. -/
def docsW : List Document :=
  [{ path := "b.py", text := "b1\nb2", lines := ["b1", "b2"] },
   { path := "a.py", text := "a1", lines := ["a1"] }]

/-- Witness for C10: a match-everything scan over documents loaded in the
order `b.py, a.py` yields `a.py` first, line numbers ascending. -/
theorem c10_grep_sorted_witness :
    List.Pairwise citOrder
      [{ path := "a.py", start_line := 1, end_line := 1, signal := "regex_match",
         snippet := "a1" },
       { path := "b.py", start_line := 1, end_line := 1, signal := "regex_match",
         snippet := "b1" },
       { path := "b.py", start_line := 2, end_line := 2, signal := "regex_match",
         snippet := "b2" }] :=
  c10_grep_sorted (fun _ => true) docsW 80 _ (by rfl)

/-! ## C8: `grep` output is a fixed point of `normalize_citation`

The heart of the claim is that `compact_text` is idempotent: a collapsed
(possibly truncated) line re-collapses to itself. The development below
characterizes `pyWords` against `takeWhile`/`dropWhile` runs and shows every
collapsed line is a single-space interleaving of nonempty whitespace-free
words, a form both collapsing and dot-truncation preserve. -/

theorem pyWords_cons_space (c : Char) (t : List Char) (h : pyIsSpace c = true) :
    pyWords (c :: t) = pyWords t := by
  rw [pyWords, if_pos h]

theorem pyWords_cons_not_space (c : Char) (t : List Char) (h : pyIsSpace c = false) :
    pyWords (c :: t) =
      (c :: t.takeWhile (fun d => !pyIsSpace d))
        :: pyWords (t.dropWhile (fun d => !pyIsSpace d)) := by
  induction t generalizing c with
  | nil =>
    rw [pyWords, if_neg (by simp [h])]
    simp [pyGlue, pyWords]
  | cons d t' ih =>
    rw [pyWords, if_neg (by simp [h])]
    by_cases hd : pyIsSpace d = true
    · rw [pyWords_cons_space d t' hd, List.takeWhile_cons, List.dropWhile_cons]
      simp only [hd, Bool.not_true, Bool.false_eq_true, if_false]
      cases hpw : pyWords t' with
      | nil => simp [pyGlue, hd, pyWords_cons_space d t' hd, hpw]
      | cons w ws => simp [pyGlue, hd, pyWords_cons_space d t' hd, hpw]
    · have hd' : pyIsSpace d = false := by simpa using hd
      rw [ih d hd', List.takeWhile_cons, List.dropWhile_cons]
      simp [pyGlue, hd']

theorem pyWords_all_space (t : List Char) (h : ∀ c ∈ t, pyIsSpace c = true) :
    pyWords t = [] := by
  induction t with
  | nil => rw [pyWords]
  | cons c t' ih =>
    rw [pyWords_cons_space c t' (h c (by simp))]
    exact ih (fun d hd => h d (by simp [hd]))

theorem pyWords_dropWhile_space (x : List Char) :
    pyWords (x.dropWhile pyIsSpace) = pyWords x := by
  induction x with
  | nil => rfl
  | cons c x' ih =>
    by_cases hc : pyIsSpace c = true
    · rw [List.dropWhile_cons_of_pos hc, ih, pyWords_cons_space c x' hc]
    · rw [List.dropWhile_cons_of_neg (by simp [hc])]

theorem pyWords_append_spaces (t : List Char) (ht : ∀ c ∈ t, pyIsSpace c = true) :
    ∀ (n : Nat) (x : List Char), x.length ≤ n → pyWords (x ++ t) = pyWords x := by
  intro n
  induction n with
  | zero =>
    intro x hx
    have : x = [] := List.eq_nil_of_length_eq_zero (by omega)
    subst this
    simpa using pyWords_all_space t ht
  | succ n ih =>
    intro x hx
    cases x with
    | nil => simpa using pyWords_all_space t ht
    | cons c x' =>
      have hx' : x'.length ≤ n := by simp at hx; omega
      by_cases hc : pyIsSpace c = true
      · rw [List.cons_append, pyWords_cons_space c _ hc, pyWords_cons_space c x' hc]
        exact ih x' hx'
      · have hc' : pyIsSpace c = false := by simpa using hc
        rw [List.cons_append, pyWords_cons_not_space c _ hc',
          pyWords_cons_not_space c x' hc']
        rw [List.takeWhile_append, List.dropWhile_append]
        by_cases hall : ∀ d ∈ x', pyIsSpace d = false
        · have htk : x'.takeWhile (fun d => !pyIsSpace d) = x' :=
            List.takeWhile_eq_self_iff.mpr (fun d hd => by simp [hall d hd])
          rw [if_pos (by rw [htk])]
          have hdwnil : x'.dropWhile (fun d => !pyIsSpace d) = [] :=
            List.dropWhile_eq_nil_iff.mpr (fun d hd => by simp [hall d hd])
          rw [hdwnil]
          simp only [List.isEmpty_nil, if_true]
          have htw : t.takeWhile (fun d => !pyIsSpace d) = [] := by
            cases t with
            | nil => rfl
            | cons a t'' =>
              rw [List.takeWhile_cons_of_neg (by simp [ht a (by simp)])]
          have hdwt : t.dropWhile (fun d => !pyIsSpace d) = t := by
            cases t with
            | nil => rfl
            | cons a t'' =>
              rw [List.dropWhile_cons_of_neg (by simp [ht a (by simp)])]
          rw [htw, hdwt, htk, pyWords_all_space t ht, pyWords]
          simp
        · push_neg at hall
          obtain ⟨d, hd, hds⟩ := hall
          have hds' : pyIsSpace d = true := by
            cases hdx : pyIsSpace d
            · exact absurd hdx hds
            · rfl
          have hlen : (x'.takeWhile (fun d => !pyIsSpace d)).length ≠ x'.length := by
            intro hlen
            have heq := (List.takeWhile_prefix
              (l := x') (p := fun d => !pyIsSpace d)).eq_of_length hlen
            have := List.takeWhile_eq_self_iff.mp heq d hd
            simp [hds'] at this
          rw [if_neg hlen]
          have hdw_ne : (x'.dropWhile (fun d => !pyIsSpace d)).isEmpty = false := by
            rw [List.isEmpty_eq_false]
            intro hnil
            have := List.dropWhile_eq_nil_iff.mp hnil d hd
            simp [hds'] at this
          rw [hdw_ne]
          simp only [Bool.false_eq_true, if_false]
          have hlen2 : (x'.dropWhile (fun d => !pyIsSpace d)).length ≤ n :=
            le_trans (List.dropWhile_sublist _).length_le hx'
          rw [ih _ hlen2]

theorem rdropWhile_append_rtakeWhile (p : Char → Bool) (x : List Char) :
    x.rdropWhile p ++ x.rtakeWhile p = x := by
  rw [List.rdropWhile, List.rtakeWhile, ← List.reverse_append,
    List.takeWhile_append_dropWhile, List.reverse_reverse]

theorem pyWords_rdropWhile_space (x : List Char) :
    pyWords (x.rdropWhile pyIsSpace) = pyWords x := by
  conv_rhs => rw [← rdropWhile_append_rtakeWhile pyIsSpace x]
  rw [pyWords_append_spaces (x.rtakeWhile pyIsSpace)
    (fun c hc => List.mem_rtakeWhile_imp hc)
    (x.rdropWhile pyIsSpace).length _ le_rfl]

theorem pyWords_pyStrip (x : List Char) : pyWords (pyStrip x) = pyWords x := by
  rw [pyStrip, pyWords_rdropWhile_space, pyWords_dropWhile_space]

/-- Every word `pyWords` produces is nonempty and free of whitespace. -/
theorem pyWords_nice :
    ∀ (n : Nat) (cs : List Char), cs.length ≤ n → ∀ w ∈ pyWords cs,
      w ≠ [] ∧ ∀ c ∈ w, pyIsSpace c = false := by
  intro n
  induction n with
  | zero =>
    intro cs hcs w hw
    have : cs = [] := List.eq_nil_of_length_eq_zero (by omega)
    subst this
    simp [pyWords] at hw
  | succ n ih =>
    intro cs hcs w hw
    cases cs with
    | nil => simp [pyWords] at hw
    | cons c rest =>
      have hr : rest.length ≤ n := by simp at hcs; omega
      by_cases hc : pyIsSpace c = true
      · rw [pyWords_cons_space c rest hc] at hw
        exact ih rest hr w hw
      · have hc' : pyIsSpace c = false := by simpa using hc
        rw [pyWords_cons_not_space c rest hc'] at hw
        rcases List.mem_cons.1 hw with h1 | h2
        · subst h1
          refine ⟨by simp, ?_⟩
          intro a ha
          rcases List.mem_cons.1 ha with h3 | h4
          · subst h3; exact hc'
          · have := List.mem_takeWhile_imp h4
            simpa using this
        · have hlen : (rest.dropWhile (fun d => !pyIsSpace d)).length ≤ n :=
            le_trans (List.dropWhile_sublist _).length_le hr
          exact ih _ hlen w h2

/-- A single nonempty whitespace-free word splits as itself. -/
theorem pyWords_single (w : List Char) (hne : w ≠ [])
    (hns : ∀ c ∈ w, pyIsSpace c = false) : pyWords w = [w] := by
  cases w with
  | nil => exact absurd rfl hne
  | cons a w' =>
    rw [pyWords_cons_not_space a w' (hns a (by simp))]
    have htk : w'.takeWhile (fun d => !pyIsSpace d) = w' :=
      List.takeWhile_eq_self_iff.mpr (fun d hd => by simp [hns d (by simp [hd])])
    have hdw : w'.dropWhile (fun d => !pyIsSpace d) = [] :=
      List.dropWhile_eq_nil_iff.mpr (fun d hd => by simp [hns d (by simp [hd])])
    rw [htk, hdw, pyWords]

/-- A word followed by a space splits as that word plus the rest's words. -/
theorem pyWords_word_space (w : List Char) (hne : w ≠ [])
    (hns : ∀ c ∈ w, pyIsSpace c = false) (t : List Char) :
    pyWords (w ++ ' ' :: t) = w :: pyWords t := by
  cases w with
  | nil => exact absurd rfl hne
  | cons a w' =>
    rw [List.cons_append, pyWords_cons_not_space a _ (hns a (by simp))]
    have htk : (w' ++ ' ' :: t).takeWhile (fun d => !pyIsSpace d) = w' := by
      rw [List.takeWhile_append]
      have htk' : w'.takeWhile (fun d => !pyIsSpace d) = w' :=
        List.takeWhile_eq_self_iff.mpr (fun d hd => by simp [hns d (by simp [hd])])
      rw [if_pos (by rw [htk']), List.takeWhile_cons_of_neg (by simp [pyIsSpace])]
      simp [htk']
    have hdw : (w' ++ ' ' :: t).dropWhile (fun d => !pyIsSpace d) = ' ' :: t := by
      rw [List.dropWhile_append]
      have hdw' : w'.dropWhile (fun d => !pyIsSpace d) = [] :=
        List.dropWhile_eq_nil_iff.mpr (fun d hd => by simp [hns d (by simp [hd])])
      rw [hdw']
      simp only [List.isEmpty_nil, if_true]
      rw [List.dropWhile_cons_of_neg (by simp [pyIsSpace])]
    rw [htk, hdw, pyWords_cons_space ' ' t (by simp [pyIsSpace])]

theorem intercalate_space_nil : List.intercalate [' '] ([] : List (List Char)) = [] := by
  simp [List.intercalate]

theorem intercalate_space_single (w : List Char) :
    List.intercalate [' '] [w] = w := by
  simp [List.intercalate]

theorem intercalate_space_cons (w : List Char) (ws : List (List Char)) (h : ws ≠ []) :
    List.intercalate [' '] (w :: ws) = w ++ ' ' :: List.intercalate [' '] ws := by
  cases ws with
  | nil => exact absurd rfl h
  | cons w2 ws' =>
    simp [List.intercalate, List.intersperse]

/-- Words rebuild: splitting a single-space interleaving of nonempty
whitespace-free words recovers exactly those words. -/
theorem pyWords_intercalate :
    ∀ (ws : List (List Char)),
      (∀ w ∈ ws, w ≠ [] ∧ ∀ c ∈ w, pyIsSpace c = false) →
      pyWords (List.intercalate [' '] ws) = ws := by
  intro ws
  induction ws with
  | nil => intro _; rw [intercalate_space_nil, pyWords]
  | cons w ws' ih =>
    intro hnice
    cases ws' with
    | nil =>
      rw [intercalate_space_single]
      exact pyWords_single w (hnice w (by simp)).1 (hnice w (by simp)).2
    | cons w2 ws'' =>
      rw [intercalate_space_cons w _ (by simp)]
      rw [pyWords_word_space w (hnice w (by simp)).1 (hnice w (by simp)).2]
      rw [ih (fun x hx => hnice x (by simp [hx]))]

/-- Nonempty whitespace-free word lists (what `pyWords` yields). -/
def NiceWords (ws : List (List Char)) : Prop :=
  ∀ w ∈ ws, w ≠ [] ∧ ∀ c ∈ w, pyIsSpace c = false

theorem dots_nice : NiceWords [['.', '.', '.']] := by
  intro w hw
  simp only [List.mem_singleton] at hw
  subst hw
  refine ⟨by simp, ?_⟩
  intro c hc
  simp only [List.mem_cons, List.not_mem_nil, or_false] at hc
  rcases hc with h | h | h <;> (subst h; rfl)

/-- Truncating a single-space interleaving and appending `...` yields
another single-space interleaving of nice words. -/
theorem intercalate_take_dots :
    ∀ (ws : List (List Char)), NiceWords ws → ∀ (k : Nat),
      ∃ ws', NiceWords ws' ∧
        (List.intercalate [' '] ws).take k ++ ['.', '.', '.'] =
          List.intercalate [' '] ws' := by
  intro ws
  induction ws with
  | nil =>
    intro _ k
    exact ⟨[['.', '.', '.']], dots_nice, by
      rw [intercalate_space_nil, intercalate_space_single]; simp⟩
  | cons w ws' ih =>
    intro hnice k
    have hw := hnice w (by simp)
    cases ws' with
    | nil =>
      refine ⟨[w.take k ++ ['.', '.', '.']], ?_, ?_⟩
      · intro u hu
        simp only [List.mem_singleton] at hu
        subst hu
        refine ⟨by simp, ?_⟩
        intro c hc
        rcases List.mem_append.1 hc with h | h
        · exact hw.2 c (List.mem_of_mem_take h)
        · exact (dots_nice _ (by simp)).2 c h
      · rw [intercalate_space_single, intercalate_space_single]
    | cons w2 ws'' =>
      rw [intercalate_space_cons w _ (by simp)]
      by_cases hk : k ≤ w.length
      · refine ⟨[w.take k ++ ['.', '.', '.']], ?_, ?_⟩
        · intro u hu
          simp only [List.mem_singleton] at hu
          subst hu
          refine ⟨by simp, ?_⟩
          intro c hc
          rcases List.mem_append.1 hc with h | h
          · exact hw.2 c (List.mem_of_mem_take h)
          · exact (dots_nice _ (by simp)).2 c h
        · rw [intercalate_space_single, List.take_append_eq_append_take]
          rw [Nat.sub_eq_zero_of_le hk, List.take_zero, List.append_nil]
      · obtain ⟨ws3, hn3, he3⟩ := ih (fun x hx => hnice x (by simp [hx])) (k - w.length - 1)
        have hws3ne : ws3 ≠ [] := by
          intro hcon
          subst hcon
          rw [intercalate_space_nil] at he3
          exact absurd he3 (by simp)
        refine ⟨w :: ws3, ?_, ?_⟩
        · intro u hu
          rcases List.mem_cons.1 hu with h | h
          · subst h; exact hw
          · exact hn3 u h
        · rw [intercalate_space_cons w ws3 hws3ne, ← he3,
            List.take_append_eq_append_take, List.take_of_length_le (by omega)]
          have hpos : k - w.length = (k - w.length - 1) + 1 := by omega
          rw [hpos, List.take_succ_cons]
          simp

/-- `pyCollapse` fixes every single-space interleaving of nice words. -/
theorem pyCollapse_intercalate (ws : List (List Char)) (h : NiceWords ws) :
    pyCollapse (List.intercalate [' '] ws) = List.intercalate [' '] ws := by
  rw [pyCollapse, pyWords_pyStrip, pyWords_intercalate ws h]

/-- The collapsed line is an interleaving of nice words. -/
theorem pyCollapse_eq_intercalate (cs : List Char) :
    ∃ ws, NiceWords ws ∧ pyCollapse cs = List.intercalate [' '] ws := by
  refine ⟨pyWords (pyStrip cs), ?_, rfl⟩
  intro w hw
  exact pyWords_nice (pyStrip cs).length (pyStrip cs) le_rfl w hw

/-- `compact_text` is idempotent (for the truncation widths the worker
uses, all at least 3). -/
theorem compact_text_idem (n : Nat) (hn : 3 ≤ n) (cs : List Char) :
    compact_text n (compact_text n cs) = compact_text n cs := by
  obtain ⟨ws, hnice, hcoll⟩ := pyCollapse_eq_intercalate cs
  by_cases hlen : (List.intercalate [' '] ws).length ≤ n
  · have h1 : compact_text n cs = List.intercalate [' '] ws := by
      rw [compact_text, hcoll, if_pos hlen]
    rw [h1, compact_text, pyCollapse_intercalate ws hnice, if_pos hlen]
  · have h1 : compact_text n cs =
        (List.intercalate [' '] ws).take (n - 3) ++ ['.', '.', '.'] := by
      rw [compact_text, hcoll, if_neg hlen]
    obtain ⟨ws', hnice', he⟩ := intercalate_take_dots ws hnice (n - 3)
    have hlen' : (List.intercalate [' '] ws').length ≤ n := by
      rw [← he]
      have h2 : (List.take (n - 3) (List.intercalate [' '] ws)).length ≤ n - 3 := by
        simp
      simp only [List.length_append, List.length_cons, List.length_nil] at h2 ⊢
      omega
    rw [h1, he, compact_text, pyCollapse_intercalate ws' hnice', if_pos hlen']

/-- `compactTextStr` at the snippet width is idempotent. -/
theorem compactTextStr_idem (n : Nat) (hn : 3 ≤ n) (s : String) :
    compactTextStr n (compactTextStr n s) = compactTextStr n s := by
  have hdata : ((compact_text n s.data).asString).data = compact_text n s.data := rfl
  rw [compactTextStr, compactTextStr, hdata, compact_text_idem n hn]

/-- Members of a dict built by insertions are the inserted pairs. -/
theorem dictInsert_mem (k : String) (v : Document) :
    ∀ (m : List (String × Document)) (kv : String × Document),
      kv ∈ dictInsert k v m → kv = (k, v) ∨ kv ∈ m := by
  intro m
  induction m with
  | nil => intro kv h; simp [dictInsert] at h; exact Or.inl h
  | cons kv0 rest ih =>
    intro kv h
    obtain ⟨k0, v0⟩ := kv0
    rw [dictInsert] at h
    split at h
    · rcases List.mem_cons.1 h with h1 | h1
      · rename_i heq
        subst heq
        exact Or.inl (by rw [h1])
      · exact Or.inr (by simp [h1])
    · rcases List.mem_cons.1 h with h1 | h1
      · exact Or.inr (by simp [h1])
      · rcases ih kv h1 with h2 | h2
        · exact Or.inl h2
        · exact Or.inr (by simp [h2])

/-- Every entry of `docs_by_path` is keyed by its document's path, for a
document from the loaded list. -/
theorem docsByPath_mem (docs : List Document) :
    ∀ kv ∈ docsByPath docs, kv.1 = kv.2.path ∧ kv.2 ∈ docs := by
  rw [docsByPath]
  suffices h : ∀ (m : List (String × Document)),
      (∀ kv ∈ m, kv.1 = kv.2.path ∧ kv.2 ∈ docs) →
      ∀ kv ∈ docs.foldl (fun m d => dictInsert d.path d m) m,
        kv.1 = kv.2.path ∧ kv.2 ∈ docs by
    exact h [] (by simp)
  have hgen : ∀ (sub : List Document), (∀ d ∈ sub, d ∈ docs) →
      ∀ (m : List (String × Document)),
      (∀ kv ∈ m, kv.1 = kv.2.path ∧ kv.2 ∈ docs) →
      ∀ kv ∈ sub.foldl (fun m d => dictInsert d.path d m) m,
        kv.1 = kv.2.path ∧ kv.2 ∈ docs := by
    intro sub
    induction sub with
    | nil => intro _ m hm kv h; simpa using hm kv h
    | cons d rest ih =>
      intro hsub m hm kv h
      simp only [List.foldl_cons] at h
      refine ih (fun x hx => hsub x (by simp [hx])) (dictInsert d.path d m) ?_ kv h
      intro kv2 h2
      rcases dictInsert_mem d.path d m kv2 h2 with h3 | h3
      · subst h3
        exact ⟨rfl, hsub d (by simp)⟩
      · exact hm kv2 h3
  exact hgen docs (fun d hd => hd)

/-- `assocGet` only returns stored values. -/
theorem assocGet_mem (k : String) :
    ∀ (m : List (String × Document)) (v : Document),
      assocGet k m = some v → (k, v) ∈ m := by
  intro m
  induction m with
  | nil => intro v h; simp [assocGet] at h
  | cons kv rest ih =>
    intro v h
    obtain ⟨k0, v0⟩ := kv
    rw [assocGet] at h
    split at h
    · rename_i heq
      subst heq
      have := Option.some.inj h
      subst this
      simp
    · exact List.mem_cons.2 (Or.inr (ih v h))

/-- A `grep` match record over a well-formed path is a fixed point of
`normalize_citation`. -/
theorem grepDocMatches_normalized (pred : String → Bool) (p : String)
    (hp : pyStripStr p = p) (hpne : p ≠ "") :
    ∀ (n : Nat) (lines : List String) (c : Citation),
      1 ≤ n → c ∈ grepDocMatches pred p n lines →
      normalize_citation c = some c := by
  intro n lines
  induction lines generalizing n with
  | nil => intro c _ h; simp [grepDocMatches] at h
  | cons l rest ih =>
    intro c hn h
    rw [grepDocMatches] at h
    rcases List.mem_append.1 h with h1 | h2
    · split at h1
      · simp only [List.mem_singleton] at h1
        subst h1
        rw [normalize_citation]
        simp only [hp]
        rw [if_neg hpne]
        have hmax1 : max 1 ((n : Int)) = (n : Int) := by omega
        have hsig : normalize_signal "regex_match" = "regex_match" := by decide
        simp only [hmax1, max_self, hsig,
          compactTextStr_idem 220 (by omega) l]
      · simp at h1
    · exact ih (n + 1) c (by omega) h2

/-- C8: every citation record `grep` returns — over documents whose paths
are as the loader produces them, stripped and nonempty — round-trips
through `normalize_citation` unchanged. -/
theorem c8_grep_normalize :
    ∀ (pred : String → Bool) (docs : List Document) (pathArg : Option String)
      (mm : Int) (out : List Citation) (c : Citation),
      (∀ d ∈ docs, pyStripStr d.path = d.path ∧ d.path ≠ "") →
      grep (initSandbox docs) pred pathArg mm = .ok out →
      c ∈ out →
      normalize_citation c = some c := by
  intro pred docs pathArg mm out c hdocs heq hc
  cases pathArg with
  | none =>
    simp only [grep, initSandbox] at heq
    have hout := Except.ok.inj heq
    subst hout
    have hc' := List.mem_of_mem_take hc
    obtain ⟨l, hl, hcl⟩ := List.mem_flatten.1 hc'
    obtain ⟨t, ht, rfl⟩ := List.mem_map.1 hl
    have htm : t ∈ docsByPath docs :=
      (List.perm_insertionSort pathKeyLe (docsByPath docs)).mem_iff.1 ht
    obtain ⟨hkey, hdoc⟩ := docsByPath_mem docs t htm
    obtain ⟨hstrip, hne⟩ := hdocs t.2 hdoc
    exact grepDocMatches_normalized pred t.1 (by rw [hkey]; exact hstrip)
      (by rw [hkey]; exact hne) 1 t.2.lines c le_rfl hcl
  | some p =>
    simp only [grep, initSandbox] at heq
    cases hget : assocGet p (docsByPath docs) with
    | none => rw [hget] at heq; exact absurd heq (by simp)
    | some d =>
      rw [hget] at heq
      have hout := Except.ok.inj heq
      subst hout
      have hc' := List.mem_of_mem_take hc
      have hdm : (p, d) ∈ docsByPath docs := assocGet_mem p (docsByPath docs) d hget
      obtain ⟨hkey, hdoc⟩ := docsByPath_mem docs (p, d) hdm
      obtain ⟨hstrip, hne⟩ := hdocs d hdoc
      exact grepDocMatches_normalized pred d.path hstrip hne 1 d.lines c le_rfl hc'

def citA : Citation :=
  { path := "a.py", start_line := 1, end_line := 1,
    signal := "regex_match", snippet := "a1" }

/-- Witness for C8: the first record of a concrete scan is a
`normalize_citation` fixed point. -/
theorem c8_grep_normalize_witness : normalize_citation citA = some citA :=
  c8_grep_normalize (fun _ => true) docsW Option.none 80 _ _
    (by decide) (by rfl) (by decide)

/-! ## C7: code extraction -/

/-- C7 is false as stated: the response `"```\n```\nrest"` contains a fenced
block (whose interior is empty), yet extraction returns the stripped full
text, not the block's interior — the source falls back to the whole text
whenever the chosen block strips to the empty string. -/
theorem c7_counterexample :
    fencedBlocks ("```\n```\nrest".data) = [[]] ∧
    extract_python_code "```\n```\nrest" = .ok "```\n```\nrest" ∧
    ¬(extract_python_code "```\n```\nrest" = .ok "") := by
  refine ⟨by decide, by rfl, fun h => ?_⟩
  have h2 : "```\n```\nrest" = "" :=
    Except.ok.inj ((by rfl : extract_python_code "```\n```\nrest" =
      Except.ok "```\n```\nrest").symm.trans h)
  exact absurd h2 (by decide)

/-- The earliest element of maximal length — what
`sorted(fenced, key=len, reverse=True)[0]` selects, since Python's sort is
stable and `reverse=True` keeps ties in scan order. -/
def firstMaxLen : List (List Char) → Option (List Char)
  | [] => Option.none
  | b :: bs =>
    match firstMaxLen bs with
    | Option.none => some b
    | some m => if m.length > b.length then some m else some b

/-- The head of the stable length-descending sort is the earliest longest
element. -/
theorem insertionSort_lenGe_head :
    ∀ (l : List (List Char)), (l.insertionSort lenGe).head? = firstMaxLen l := by
  intro l
  induction l with
  | nil => rfl
  | cons a l ih =>
    rw [List.insertionSort]
    cases hs : l.insertionSort lenGe with
    | nil =>
      have hl : l = [] := by
        have := List.length_insertionSort lenGe l
        rw [hs] at this
        exact List.eq_nil_of_length_eq_zero this.symm
      subst hl
      rfl
    | cons b bs =>
      rw [hs] at ih
      rw [List.orderedInsert]
      rw [firstMaxLen, ← ih]
      simp only [List.head?_cons]
      by_cases hba : lenGe a b
      · rw [if_pos hba]
        rw [if_neg (by rw [lenGe] at hba; omega)]
        rfl
      · rw [if_neg hba]
        rw [if_pos (by rw [lenGe] at hba; omega)]
        rfl

/-- `firstMaxLen` picks a member of maximal length. -/
theorem firstMaxLen_spec :
    ∀ (bs : List (List Char)) (b : List Char),
      firstMaxLen bs = some b → b ∈ bs ∧ ∀ x ∈ bs, x.length ≤ b.length := by
  intro bs
  induction bs with
  | nil => intro b h; simp [firstMaxLen] at h
  | cons a bs ih =>
    intro b h
    rw [firstMaxLen] at h
    cases hm : firstMaxLen bs with
    | none =>
      rw [hm] at h
      have hb := Option.some.inj h
      subst hb
      have hbs : bs = [] := by
        cases bs with
        | nil => rfl
        | cons c cs =>
          rw [firstMaxLen] at hm
          cases h2 : firstMaxLen cs with
          | none =>
            simp only [h2] at hm
            exact Option.noConfusion hm
          | some m2 =>
            simp only [h2] at hm
            split at hm <;> exact Option.noConfusion hm
      subst hbs
      refine ⟨by simp, ?_⟩
      intro x hx
      simp only [List.mem_singleton] at hx
      subst hx
      exact le_rfl
    | some m =>
      rw [hm] at h
      have h' : (if m.length > a.length then some m else some a) = some b := h
      obtain ⟨hmem, hmax⟩ := ih m hm
      by_cases hcond : m.length > a.length
      · rw [if_pos hcond] at h'
        have hb := Option.some.inj h'
        subst hb
        refine ⟨List.mem_cons.2 (Or.inr hmem), ?_⟩
        intro x hx
        rcases List.mem_cons.1 hx with h1 | h1
        · subst h1; omega
        · exact hmax x h1
      · rw [if_neg hcond] at h'
        have hb := Option.some.inj h'
        subst hb
        refine ⟨List.mem_cons.2 (Or.inl rfl), ?_⟩
        intro x hx
        rcases List.mem_cons.1 hx with h1 | h1
        · subst h1; exact le_rfl
        · exact le_trans (hmax x h1) (by omega)

/-- C7 amended: an empty response fails; when fenced blocks exist and the
earliest longest block is nonempty after stripping, extraction returns that
block stripped; otherwise — no fenced block, or the chosen block strips to
empty — it returns the stripped full text. The last conjunct pins down what
"longest" means. -/
theorem c7_extract_amended :
    (∀ raw : String, pyStrip raw.data = [] →
        extract_python_code raw = .error .other) ∧
    (∀ (raw : String) (b : List Char),
        firstMaxLen (fencedBlocks (pyStrip raw.data)) = some b →
        pyStrip b ≠ [] →
        extract_python_code raw = .ok (pyStrip b).asString) ∧
    (∀ raw : String, pyStrip raw.data ≠ [] →
        (fencedBlocks (pyStrip raw.data) = [] ∨
          (∃ b, firstMaxLen (fencedBlocks (pyStrip raw.data)) = some b ∧
            pyStrip b = [])) →
        extract_python_code raw = .ok (pyStrip raw.data).asString) ∧
    (∀ (bs : List (List Char)) (b : List Char), firstMaxLen bs = some b →
        b ∈ bs ∧ ∀ x ∈ bs, x.length ≤ b.length) := by
  refine ⟨?_, ?_, ?_, firstMaxLen_spec⟩
  · intro raw h
    rw [extract_python_code, if_pos (by rw [List.isEmpty_iff]; exact h)]
  · intro raw b hb hne
    have hraw : pyStrip raw.data ≠ [] := by
      intro hcon
      rw [hcon] at hb
      simp [fencedBlocks, fencedBlocksF, firstMaxLen] at hb
    rw [extract_python_code,
      if_neg (by rw [List.isEmpty_iff]; exact hraw)]
    have hfne : fencedBlocks (pyStrip raw.data) ≠ [] := by
      intro hcon
      rw [hcon] at hb
      simp [firstMaxLen] at hb
    rw [if_neg (by rw [List.isEmpty_iff]; exact hfne)]
    have hhead := insertionSort_lenGe_head (fencedBlocks (pyStrip raw.data))
    rw [hb] at hhead
    obtain ⟨l', hl'⟩ := List.head?_eq_some_iff.1 hhead
    rw [hl']
    simp only [List.headD_cons]
    rw [if_neg (by rw [List.isEmpty_iff]; exact hne)]
  · intro raw hraw hcases
    rw [extract_python_code,
      if_neg (by rw [List.isEmpty_iff]; exact hraw)]
    rcases hcases with hnil | ⟨b, hb, hbe⟩
    · rw [if_pos (by rw [List.isEmpty_iff]; exact hnil)]
    · have hfne : fencedBlocks (pyStrip raw.data) ≠ [] := by
        intro hcon
        rw [hcon] at hb
        simp [firstMaxLen] at hb
      rw [if_neg (by rw [List.isEmpty_iff]; exact hfne)]
      have hhead := insertionSort_lenGe_head (fencedBlocks (pyStrip raw.data))
      rw [hb] at hhead
      obtain ⟨l', hl'⟩ := List.head?_eq_some_iff.1 hhead
      rw [hl']
      simp only [List.headD_cons]
      rw [hbe]
      simp

/-- Witness for C7 (amended): the longer of two fenced blocks is chosen. -/
theorem c7_extract_amended_witness :
    extract_python_code "x ```a``` ```bc``` y" = .ok "bc" :=
  c7_extract_amended.2.1 "x ```a``` ```bc``` y" "bc".data (by rfl) (by decide)
